import Mathlib

set_option maxHeartbeats 1000000

/-!
Shallow embedding of the agent-ethan2 runtime core: graph scheduler
(`runtime/scheduler.py`), graph builder (`graph/builder.py`), event bus
(`telemetry/event_bus.py`), masking engine (`policy/masking.py`) and cost
limiter (`policy/cost.py`), together with proofs checking the
natural-language specification against the code.
-/

namespace AgentEthan

/-- JSON-like runtime values, mirroring the Python objects the runtime
passes around (payloads, node outputs, configuration values). -/
inductive Value : Type where
  | vnull : Value
  | vbool : Bool → Value
  | vint : Int → Value
  | vstr : String → Value
  | vlst : List Value → Value
  | vobj : List (String × Value) → Value

/-- Python dictionaries with string keys are modelled as ordered
association lists, as insertion order is observable in Python. -/
abbrev Dict := List (String × Value)

/-- Lookup of the first binding of a key in an association list,
mirroring Python dictionary item access. -/
def aget {α : Type} (k : String) : List (String × α) → Option α
  | [] => none
  | (k', v) :: rest => if k' = k then some v else aget k rest

/-- Python dictionary assignment: replace the first binding of the key in
place, or append a new binding at the end. -/
def aset {α : Type} (k : String) (v : α) : List (String × α) → List (String × α)
  | [] => [(k, v)]
  | (k', v') :: rest => if k' = k then (k', v) :: rest else (k', v') :: aset k v rest

/-- Key list of an association list. -/
def akeys {α : Type} (d : List (String × α)) : List String := d.map Prod.fst

/-! ### Cost limiter (`policy/cost.py`, `CostLimiter.record_llm_call`) -/

/-- State of a `CostLimiter`: the configured per-run token budget and the
accumulated totals per run id (`self._run_totals`). -/
structure CostState where
  per_run_tokens : Option Int
  run_totals : List (String × Int)
  deriving Repr, DecidableEq

/-- Embedding of `CostLimiter.record_llm_call`.  Returns the state after
the call together with the error code when the call raises
(`ERR_COST_LIMIT_EXCEEDED`); a raising call leaves the stored totals
untouched because the assignment to `self._run_totals` comes after the
raise in the source. -/
def record_llm_call (st : CostState) (run_id : String)
    (tokens_in tokens_out : Option Int) : CostState × Option String :=
  let total := tokens_in.getD 0 + tokens_out.getD 0
  if total ≤ 0 then (st, none)
  else
    let current := (aget run_id st.run_totals).getD 0 + total
    match st.per_run_tokens with
    | some limit =>
        if current > limit then (st, some "ERR_COST_LIMIT_EXCEEDED")
        else ({ st with run_totals := aset run_id current st.run_totals }, none)
    | none => ({ st with run_totals := aset run_id current st.run_totals }, none)

/-- ASCII lowering of one character, modelling Python `str.lower()` on the
ASCII node-type and component-type strings the builder compares. -/
def py_lower_char (c : Char) : Char :=
  if 65 ≤ c.toNat ∧ c.toNat ≤ 90 then Char.ofNat (c.toNat + 32) else c

/-- Python `str.lower()` on ASCII strings. -/
def py_lower (s : String) : String := ⟨s.data.map py_lower_char⟩

/-! ### Graph builder kind inference (`graph/builder.py`) -/

/-- The set `GraphBuilder.SUPPORTED_KINDS`. -/
def SUPPORTED_KINDS : List String := ["component", "llm", "tool", "router", "map", "parallel"]

/-- The five kinds that a declared node type or component type can force
in `GraphBuilder._determine_kind`. -/
def FIVE_KINDS : List String := ["llm", "tool", "router", "map", "parallel"]

/-- Embedding of `GraphBuilder._determine_kind`: the declared node type
(lowercased) wins when it is one of the five special kinds; otherwise,
only when the node type is one of component/node/task and a component is
attached whose lowercased type is one of the five, the component type is
used; otherwise the lowercased node type is returned unchanged. -/
def determine_kind (node_type : String) (component_type : Option String) : String :=
  let nt := py_lower node_type
  if FIVE_KINDS.contains nt then nt
  else
    match component_type with
    | some ct =>
        if ["component", "node", "task"].contains nt then
          let c := py_lower ct
          if FIVE_KINDS.contains c then c else nt
        else nt
    | none => nt

/-- Embedding of the kind determination and validation in
`GraphBuilder._build_node` (lines 115-121): compute the kind via
`_determine_kind` and fail with `ERR_NODE_TYPE` when the kind is not in
`SUPPORTED_KINDS`. -/
def build_node_kind (node_type : String) (component_type : Option String) :
    Except String String :=
  let kind := determine_kind node_type component_type
  if SUPPORTED_KINDS.contains kind then Except.ok kind
  else Except.error "ERR_NODE_TYPE"

/-! ### Python value equality and well-formedness -/

mutual

/-- Python equality on values (`==`): structural on scalars and lists, and
extensional on dictionaries (key sets and pointwise equality; insertion
order is ignored by Python `==`).  Dictionary comparison checks equal entry
counts plus that every entry of the left dictionary matches a lookup in the
right one; on duplicate-free dictionaries this coincides with Python
semantics. -/
def veq : Value → Value → Bool
  | Value.vnull, Value.vnull => true
  | Value.vbool a, Value.vbool b => a == b
  | Value.vint a, Value.vint b => a == b
  | Value.vstr a, Value.vstr b => a == b
  | Value.vlst a, Value.vlst b => vleq a b
  | Value.vobj a, Value.vobj b => a.length == b.length && dsub a b
  | _, _ => false

/-- Elementwise Python equality of two lists of values. -/
def vleq : List Value → List Value → Bool
  | [], [] => true
  | x :: xs, y :: ys => veq x y && vleq xs ys
  | _, _ => false

/-- Every entry of the first dictionary has a matching entry (same key,
Python-equal value) in the second. -/
def dsub : List (String × Value) → List (String × Value) → Bool
  | [], _ => true
  | (k, v) :: rest, m =>
      (match aget k m with
       | some v' => veq v v'
       | none => false) && dsub rest m

end

/-- Boolean no-duplicate check for a key list. -/
def nodup_keys : List String → Bool
  | [] => true
  | k :: ks => !(ks.contains k) && nodup_keys ks

mutual

/-- Well-formedness of a value as the image of a Python object: every
dictionary, at any depth, has duplicate-free keys.  Real Python
dictionaries satisfy this by construction. -/
def WFv : Value → Bool
  | Value.vnull => true
  | Value.vbool _ => true
  | Value.vint _ => true
  | Value.vstr _ => true
  | Value.vlst xs => WFl xs
  | Value.vobj m => nodup_keys (akeys m) && WFd m

/-- Well-formedness of a list of values. -/
def WFl : List Value → Bool
  | [] => true
  | x :: xs => WFv x && WFl xs

/-- Well-formedness of the values stored in a dictionary. -/
def WFd : List (String × Value) → Bool
  | [] => true
  | (_, v) :: rest => WFv v && WFd rest

end

mutual

/-- Structural size of a value, used for strong induction in the proofs
about Python equality. -/
def vsize : Value → Nat
  | Value.vnull => 1
  | Value.vbool _ => 1
  | Value.vint _ => 1
  | Value.vstr _ => 1
  | Value.vlst xs => 1 + lsize xs
  | Value.vobj m => 1 + dsize m

/-- Structural size of a list of values. -/
def lsize : List Value → Nat
  | [] => 0
  | x :: xs => 1 + vsize x + lsize xs

/-- Structural size of a dictionary. -/
def dsize : List (String × Value) → Nat
  | [] => 0
  | (_, v) :: rest => 1 + vsize v + dsize rest

end

/-- Python `str()` conversion for the scalar values the runtime routes on.
The textual representation of containers is abstracted (no theorem in this
development depends on it). -/
def pyStr : Value → String
  | Value.vnull => "None"
  | Value.vbool b => if b then "True" else "False"
  | Value.vint n => toString n
  | Value.vstr s => s
  | Value.vlst _ => "<list repr abstracted>"
  | Value.vobj _ => "<dict repr abstracted>"

/-- Python truthiness test (`if not run_id`). -/
def pyFalsy : Value → Bool
  | Value.vnull => true
  | Value.vbool b => !b
  | Value.vint n => n == 0
  | Value.vstr s => s == ""
  | Value.vlst xs => xs.isEmpty
  | Value.vobj m => m.isEmpty

/-! ### Router successor selection (`Scheduler._select_next`) -/

/-- The slice of a compiled `NodeSpec` that `_select_next` consults. -/
structure RNodeSpec where
  id : String
  kind : String
  routes : List (String × String)
  next_nodes : List String

/-- Embedding of `Scheduler._select_next`.  For a router node the recorded
node state must exist and its outputs must carry a non-None `route` value;
`str(route)` selects `routes[value]`, falling back to `routes["default"]`,
else `ERR_ROUTER_NO_MATCH`.  Non-router nodes return `next_nodes`. -/
def select_next (spec : RNodeSpec) (node_state : Option Dict) :
    Except String (List String) :=
  if spec.kind = "router" then
    match node_state with
    | none => Except.error "ERR_ROUTER_NO_MATCH"
    | some outputs =>
        match aget "route" outputs with
        | none => Except.error "ERR_ROUTER_NO_MATCH"
        | some Value.vnull => Except.error "ERR_ROUTER_NO_MATCH"
        | some route_value =>
            let route_key := pyStr route_value
            match aget route_key spec.routes with
            | some target => Except.ok [target]
            | none =>
                match aget "default" spec.routes with
                | some default_target => Except.ok [default_target]
                | none => Except.error "ERR_ROUTER_NO_MATCH"
  else Except.ok spec.next_nodes

/-! ### Graph output collection (`Scheduler._collect_outputs`) -/

/-- One declared graph output `{key, node_id, output}`. -/
structure OutputMapping where
  key : String
  node_id : String
  output : String

/-- Loop body of `_collect_outputs`: a missing node state raises
`ERR_EDGE_ENDPOINT_INVALID`, a missing output name raises `ERR_NODE_TYPE`,
otherwise the declared key is written into the accumulating result map. -/
def collect_outputs_aux (node_states : List (String × Dict)) (acc : Dict) :
    List OutputMapping → Except String Dict
  | [] => Except.ok acc
  | m :: rest =>
      match aget m.node_id node_states with
      | none => Except.error "ERR_EDGE_ENDPOINT_INVALID"
      | some outputs =>
          match aget m.output outputs with
          | none => Except.error "ERR_NODE_TYPE"
          | some v => collect_outputs_aux node_states (aset m.key v acc) rest

/-- Embedding of `Scheduler._collect_outputs`. -/
def collect_outputs (outs : List OutputMapping) (node_states : List (String × Dict)) :
    Except String Dict :=
  collect_outputs_aux node_states [] outs

/-! ### Parallel branch merging (`Scheduler._execute_parallel`, lines 587-601) -/

/-- Inner key loop of the merge: under policy `error` a key already merged
with a Python-unequal value raises `ERR_NODE_RUNTIME`; otherwise the later
value overwrites. -/
def merge_entries (policy : String) : List (String × Value) → Dict → Except String Dict
  | [], acc => Except.ok acc
  | (k, v) :: rest, acc =>
      if policy = "error" then
        match aget k acc with
        | some u =>
            if veq u v then merge_entries policy rest (aset k v acc)
            else Except.error "ERR_NODE_RUNTIME"
        | none => merge_entries policy rest (aset k v acc)
      else merge_entries policy rest (aset k v acc)

/-- Outer branch loop of the merge, in branch completion order. -/
def merge_branches (policy : String) : List (String × Dict) → Dict → Except String Dict
  | [], acc => Except.ok acc
  | (_, outs) :: rest, acc =>
      match merge_entries policy outs acc with
      | Except.ok acc2 => merge_branches policy rest acc2
      | Except.error e => Except.error e

/-- Merge phase of `Scheduler._execute_parallel`: whatever the policy, the
node outputs returned are a single-key dictionary nesting the merged map
under `results`. -/
def execute_parallel_merge (merge_policy : String) (results : List (String × Dict)) :
    Except String Dict :=
  if merge_policy = "namespace" then
    Except.ok [("results", Value.vobj (results.map (fun p => (p.1, Value.vobj p.2))))]
  else
    match merge_branches merge_policy results [] with
    | Except.ok merged => Except.ok [("results", Value.vobj merged)]
    | Except.error e => Except.error e

/-! ### Map execution (`Scheduler._execute_map`) -/

/-- Failure raised out of a scheduler primitive: either a
`GraphExecutionError` carrying a stable code, or a re-raised Python
exception. -/
inductive PyErr where
  | graphExec (code : String)
  | pyExc (message : String)

/-- Iteration loop of `_execute_map`: per failure mode, fail fast with
`ERR_NODE_RUNTIME`, collect `{index, error}` entries, skip, or re-raise the
component exception for an unknown mode. -/
def map_loop (comp : Nat → Value → Except String Dict) (failure_mode : String) :
    List (Nat × Value) → List (Nat × Dict) → List (Nat × String) →
    Except PyErr (List (Nat × Dict) × List (Nat × String))
  | [], res, errs => Except.ok (res, errs)
  | (i, item) :: rest, res, errs =>
      match comp i item with
      | Except.ok outs => map_loop comp failure_mode rest (res ++ [(i, outs)]) errs
      | Except.error msg =>
          if failure_mode = "fail_fast" then Except.error (PyErr.graphExec "ERR_NODE_RUNTIME")
          else if failure_mode = "collect_errors" then
            map_loop comp failure_mode rest res (errs ++ [(i, msg)])
          else if failure_mode = "skip_failed" then map_loop comp failure_mode rest res errs
          else Except.error (PyErr.pyExc msg)

/-- Insertion of a pair into a list sorted by first component. -/
def insert_by_fst {α : Type} (p : Nat × α) : List (Nat × α) → List (Nat × α)
  | [] => [p]
  | q :: rest => if p.1 ≤ q.1 then p :: q :: rest else q :: insert_by_fst p rest

/-- Sort by first component (`results.sort(key=lambda pair: pair[0])`). -/
def sort_by_fst {α : Type} : List (Nat × α) → List (Nat × α)
  | [] => []
  | p :: rest => insert_by_fst p (sort_by_fst rest)

/-- The `errors` output of a map node: a list of `{index, error}` maps. -/
def errors_value (errs : List (Nat × String)) : Value :=
  Value.vlst (errs.map (fun pr => Value.vobj
    [("index", Value.vint (Int.ofNat pr.1)), ("error", Value.vstr pr.2)]))

/-- Embedding of `Scheduler._execute_map`.  The component behaviour per
iteration is abstracted as a function of the index and the item; the merged
configuration contributes `failure_mode`, `ordered` and `result_key`.
Returns the node outputs (`{result_key: survivors, errors: [...]}`) and
the raw result list. -/
def execute_map (has_component : Bool) (collection : Value) (failure_mode : String)
    (ordered : Bool) (result_key : String)
    (comp : Nat → Value → Except String Dict) : Except PyErr (Dict × List Dict) :=
  if has_component = false then Except.error (PyErr.graphExec "ERR_MAP_BODY_NOT_FOUND")
  else
    match collection with
    | Value.vlst items =>
        match map_loop comp failure_mode items.enum [] [] with
        | Except.ok (res, errs) =>
            let sorted := if ordered then sort_by_fst res else res
            let mapped := sorted.map Prod.snd
            let outputs := aset "errors" (errors_value errs)
              (aset result_key (Value.vlst (mapped.map Value.vobj)) [])
            Except.ok (outputs, mapped)
        | Except.error e => Except.error e
    | _ => Except.error (PyErr.graphExec "ERR_MAP_OVER_NOT_ARRAY")

/-! ### Node execution wrapper (`Scheduler._run_node`) -/

/-- Runtime events, restricted to the fields the claims mention. -/
inductive Event where
  | graph_start
  | graph_finish (status : String)
  | node_start (node_id : String)
  | node_finish (node_id : String) (status : String) (outputs : Dict)
  | error_raised (node_id : String) (message : String)
  | timeout_ev
  | cancelled_ev

/-- Outcome of the try body of `_run_node` (component invocation, or the
map/parallel primitive): success with outputs, a `GraphExecutionError`, or
any other Python exception. -/
inductive CompOutcome where
  | ok (outputs : Dict)
  | graphErr (code : String)
  | pyErr (message : String)

/-- Result of one `_run_node` call: events emitted in order, updated node
states, cancel token state, and either the successor list or the raised
error. -/
structure RunNodeResult where
  events : List Event
  node_states : List (String × Dict)
  token_cancelled : Bool
  next : Except PyErr (List String)

/-- Embedding of `Scheduler._run_node`.  On success the node state is
recorded and `node.finish{success}` emitted, then `_select_next` runs
outside the try block (its failure propagates without extra events or a
cancel here).  A `GraphExecutionError` emits `error.raised` then
`node.finish{error}`, always cancels the token and re-raises.  Any other
exception emits the same events; with `cancel_on_error` it cancels and
wraps into `ERR_NODE_RUNTIME`, otherwise it records empty outputs,
schedules no successors and leaves the token alone. -/
def run_node (spec : RNodeSpec) (outcome : CompOutcome) (cancel_on_error : Bool)
    (token : Bool) (states : List (String × Dict)) : RunNodeResult :=
  match outcome with
  | CompOutcome.ok outputs =>
      let states2 := aset spec.id outputs states
      let evs := [Event.node_start spec.id, Event.node_finish spec.id "success" outputs]
      match select_next spec (aget spec.id states2) with
      | Except.ok targets => ⟨evs, states2, token, Except.ok targets⟩
      | Except.error code => ⟨evs, states2, token, Except.error (PyErr.graphExec code)⟩
  | CompOutcome.graphErr code =>
      ⟨[Event.node_start spec.id, Event.error_raised spec.id code,
        Event.node_finish spec.id "error" []],
       states, true, Except.error (PyErr.graphExec code)⟩
  | CompOutcome.pyErr msg =>
      if cancel_on_error then
        ⟨[Event.node_start spec.id, Event.error_raised spec.id msg,
          Event.node_finish spec.id "error" []],
         states, true, Except.error (PyErr.graphExec "ERR_NODE_RUNTIME")⟩
      else
        ⟨[Event.node_start spec.id, Event.error_raised spec.id msg,
          Event.node_finish spec.id "error" []],
         aset spec.id [] states, token, Except.ok []⟩

/-! ### Run-level dispatch (`Scheduler.run`) -/

/-- Terminal outcome of awaiting `self._execute` under the optional
`asyncio.wait_for` wrapper. -/
inductive ExecOutcome where
  | success (outputs : Dict) (node_states : List (String × Dict))
  | timeout
  | cancelled
  | graphErr (code : String)
  | pyErr (message : String)

/-- Error surfaced by `Scheduler.run`. -/
inductive RunError where
  | timeout_error
  | cancelled_error
  | graphExec (code : String)
  | pyExc (message : String)

/-- Result of `Scheduler.run`: events, final cancel-token state, and the
returned result or raised error. -/
structure RunResult where
  events : List Event
  token_cancelled : Bool
  result : Except RunError (Dict × List (String × Dict))

/-- Embedding of the try/except dispatch in `Scheduler.run`.  The token
state produced during execution is passed in; `run` itself cancels the
token on every exceptional path but not on the success path. -/
def scheduler_run (exec_outcome : ExecOutcome) (token_after_exec : Bool) : RunResult :=
  match exec_outcome with
  | ExecOutcome.success outputs node_states =>
      ⟨[Event.graph_start, Event.graph_finish "success"], token_after_exec,
       Except.ok (outputs, node_states)⟩
  | ExecOutcome.timeout =>
      ⟨[Event.graph_start, Event.timeout_ev, Event.graph_finish "timeout"], true,
       Except.error RunError.timeout_error⟩
  | ExecOutcome.cancelled =>
      ⟨[Event.graph_start, Event.cancelled_ev, Event.graph_finish "cancelled"], true,
       Except.error RunError.cancelled_error⟩
  | ExecOutcome.graphErr code =>
      ⟨[Event.graph_start, Event.graph_finish "error"], true,
       Except.error (RunError.graphExec code)⟩
  | ExecOutcome.pyErr msg =>
      ⟨[Event.graph_start, Event.graph_finish "error"], true,
       Except.error (RunError.pyExc msg)⟩

/-! ### Event bus sequence stamping (`telemetry/event_bus.py`, `EventBus.emit`) -/

/-- Event bus state: the per-run sequence counters (`self._sequence`). -/
structure BusState where
  counters : List (String × Nat)

/-- Embedding of the sequence-stamping prefix of `EventBus.emit`: a missing
or falsy `run_id` raises `ValueError`; the per-run counter value is written
into the payload with `setdefault` (an existing `sequence` key wins) and
the counter is incremented exactly once per call, before any sink runs. -/
def bus_emit (st : BusState) (payload : Dict) : Except String (BusState × Dict) :=
  match aget "run_id" payload with
  | none => Except.error "ValueError"
  | some rv =>
      if pyFalsy rv then Except.error "ValueError"
      else
        let run_id := pyStr rv
        let seq := (aget run_id st.counters).getD 0
        let stamped :=
          if (aget "sequence" payload).isSome then payload
          else aset "sequence" (Value.vint (Int.ofNat seq)) payload
        Except.ok (⟨aset run_id (seq + 1) st.counters⟩, stamped)

/-- Fold a list of emit calls through the bus; a raised `ValueError` aborts
the remainder of the trace, as the exception propagates to the caller. -/
def bus_trace (st : BusState) : List Dict → BusState × List Dict
  | [] => (st, [])
  | p :: rest =>
      match bus_emit st p with
      | Except.ok (st2, stamped) =>
          let out := bus_trace st2 rest
          (out.1, stamped :: out.2)
      | Except.error _ => (st, [])

/-- The stamped events of a trace that belong to a given run id. -/
def stamped_for (r : String) (evs : List Dict) : List Dict :=
  evs.filter (fun d =>
    match aget "run_id" d with
    | some v => pyStr v == r
    | none => false)

/-! ### Masking engine (`policy/masking.py`) -/

/-- Splitting of a character list at a separator, modelling Python
`str.split` with a single-character separator. -/
def split_chars (sep : Char) : List Char → List (List Char)
  | [] => [[]]
  | c :: rest =>
      let r := split_chars sep rest
      if c = sep then [] :: r
      else
        match r with
        | [] => [[c]]
        | g :: gs => (c :: g) :: gs

/-- Path splitting shared by `_get_path` and `_set_path`:
`[part for part in path.split(".") if part]`. -/
def split_path (path : String) : List String :=
  ((split_chars '.' path.data).map (fun cs => String.mk cs)).filter (fun s => s ≠ "")

/-- Coercion of an optional looked-up value to the dictionary `_set_path`
walks into: an existing mapping is reused, anything else is replaced by a
fresh empty dictionary. -/
def asDict : Option Value → Dict
  | some (Value.vobj m) => m
  | _ => []

/-- Recursive core of `_set_path`: walk the parts, replacing any
non-mapping intermediate with a fresh dictionary, and assign the value at
the last part. -/
def set_path_go (v : Value) : List String → Dict → Dict
  | [], d => d
  | k :: rest, d =>
      match rest with
      | [] => aset k v d
      | _ :: _ => aset k (Value.vobj (set_path_go v rest (asDict (aget k d)))) d

/-- Embedding of `_set_path` (empty part lists leave the payload alone). -/
def set_path (d : Dict) (path : String) (v : Value) : Dict :=
  set_path_go v (split_path path) d

/-- Recursive core of `_get_path`. -/
def get_path_go : List String → Value → Option Value
  | [], v => some v
  | k :: rest, v =>
      match v with
      | Value.vobj m =>
          match aget k m with
          | some v' => get_path_go rest v'
          | none => none
      | _ => none

/-- Embedding of `_get_path`. -/
def get_path (d : Dict) (path : String) : Option Value :=
  get_path_go (split_path path) (Value.vobj d)

/-- Masking configuration (`MaskingConfig`). -/
structure MaskConfig where
  fields : List String
  diff_fields : List String
  mask_value : String

/-- Masking engine state: the per-run diff memory (`self._previous`). -/
structure MaskState where
  previous : List (String × List (String × Value))

/-- Application of the fixed `fields` rules in order. -/
def apply_fields (mv : String) (fields : List String) (d : Dict) : Dict :=
  fields.foldl (fun acc f => set_path acc f (Value.vstr mv)) d

/-- Diff-field loop of `MaskingEngine.mask`: a missing or None current
value is skipped; a previously seen different value masks the field; the
per-run memory is updated with the current value. -/
def mask_diff_loop (mv : String) : List String → Dict → List (String × Value) →
    Dict × List (String × Value)
  | [], masked, prev => (masked, prev)
  | f :: rest, masked, prev =>
      match get_path masked f with
      | none => mask_diff_loop mv rest masked prev
      | some Value.vnull => mask_diff_loop mv rest masked prev
      | some current =>
          let masked2 :=
            match aget f prev with
            | some Value.vnull => masked
            | some previous_value =>
                if veq previous_value current then masked
                else set_path masked f (Value.vstr mv)
            | none => masked
          mask_diff_loop mv rest masked2 (aset f current prev)

/-- Embedding of `MaskingEngine.mask`.  The `deepcopy` of the payload is
modelled by value semantics: the function builds a fresh masked payload and
the caller keeps the original untouched. -/
def mask (cfg : MaskConfig) (st : MaskState) (payload : Dict) : Dict × MaskState :=
  let run_id :=
    match aget "run_id" payload with
    | some v => pyStr v
    | none => ""
  let masked := apply_fields cfg.mask_value cfg.fields payload
  if run_id = "" then (masked, st)
  else
    let prev0 := (aget run_id st.previous).getD []
    let out := mask_diff_loop cfg.mask_value cfg.diff_fields masked prev0
    (out.1, ⟨aset run_id out.2 st.previous⟩)

/-- Sequential dictionary update with a list of entries (the effect of the
nested merge loops under policies other than `namespace`). -/
def dfold (l : List (String × Value)) (acc : Dict) : Dict :=
  l.foldl (fun a kv => aset kv.1 kv.2 a) acc

/-- Specification view of a collect-errors map run: the surviving
iterations, in index order, paired with their outputs. -/
def map_survivors_spec (comp : Nat → Value → Except String Dict)
    (items : List Value) : List (Nat × Dict) :=
  items.enum.filterMap (fun p =>
    match comp p.1 p.2 with
    | Except.ok outs => some (p.1, outs)
    | Except.error _ => none)

/-- Specification view of a collect-errors map run: the failing
iterations, in index order, paired with their error messages. -/
def map_errors_spec (comp : Nat → Value → Except String Dict)
    (items : List Value) : List (Nat × String) :=
  items.enum.filterMap (fun p =>
    match comp p.1 p.2 with
    | Except.ok _ => none
    | Except.error e => some (p.1, e))

/-- Python equality on two optional lookup results: both absent, or both
present with Python-equal values. -/
def optveq : Option Value → Option Value → Bool
  | none, none => true
  | some u, some v => veq u v
  | _, _ => false

/-- Well-formedness of a dictionary (the `vobj` case of `WFv`). -/
def WFdict (d : Dict) : Bool :=
  nodup_keys (akeys d) && WFd d

/-! ## Helper lemmas -/

theorem aget_aset_same {α : Type} (k : String) (v : α) (d : List (String × α)) :
    aget k (aset k v d) = some v := by
  induction d with
  | nil => simp [aget, aset]
  | cons p rest ih =>
      obtain ⟨k', v'⟩ := p
      by_cases h : k' = k
      · simp [aget, aset, h]
      · simp [aget, aset, h, ih]

theorem aget_aset_ne {α : Type} {k k' : String} (hne : k' ≠ k) (v : α)
    (d : List (String × α)) : aget k' (aset k v d) = aget k' d := by
  induction d with
  | nil =>
      have h : ¬ (k = k') := fun h => hne h.symm
      simp [aget, aset, h]
  | cons p rest ih =>
      obtain ⟨k₀, v₀⟩ := p
      by_cases h : k₀ = k
      · subst h
        simp [aget, aset, Ne.symm hne]
      · simp only [aset, if_neg h]
        by_cases h' : k₀ = k'
        · simp [aget, h']
        · simp [aget, h', ih]

theorem aget_aset_isSome {α : Type} (k k' : String) (v : α) (d : List (String × α))
    (h : (aget k' d).isSome = true) : (aget k' (aset k v d)).isSome = true := by
  by_cases hk : k' = k
  · subst hk; simp [aget_aset_same]
  · rwa [aget_aset_ne hk]

theorem aset_absent_append {α : Type} {k : String} (v : α) {d : List (String × α)}
    (h : aget k d = none) : aset k v d = d ++ [(k, v)] := by
  induction d with
  | nil => simp [aset]
  | cons p rest ih =>
      obtain ⟨k₀, v₀⟩ := p
      by_cases hk : k₀ = k
      · simp [aget, hk] at h
      · simp only [aget, if_neg hk] at h
        simp [aset, hk, ih h]

theorem akeys_cons {α : Type} (p : String × α) (rest : List (String × α)) :
    akeys (p :: rest) = p.1 :: akeys rest := rfl

/-! ## C10 — cost limiter error handling -/

/-- C10: a `record_llm_call` that raises `ERR_COST_LIMIT_EXCEEDED` leaves
the accumulated totals unchanged (so a later, small enough call still
succeeds), and a call whose token sum is non-positive (in particular when
both counts are null) returns without raising and without touching the
state, whatever the accumulated total. -/
theorem cost_limiter_overbudget_no_accumulate (st : CostState) (r : String)
    (tIn tOut : Option Int) :
    (∀ c, (record_llm_call st r tIn tOut).2 = some c →
      (record_llm_call st r tIn tOut).1 = st)
    ∧ (tIn.getD 0 + tOut.getD 0 ≤ 0 → record_llm_call st r tIn tOut = (st, none))
    ∧ (∀ L tIn2 tOut2, st.per_run_tokens = some L →
        ((record_llm_call st r tIn tOut).2).isSome = true →
        0 < tIn2.getD 0 + tOut2.getD 0 →
        (aget r st.run_totals).getD 0 + (tIn2.getD 0 + tOut2.getD 0) ≤ L →
        (record_llm_call (record_llm_call st r tIn tOut).1 r tIn2 tOut2).2 = none) := by
  refine ⟨?_, ?_, ?_⟩
  · intro c h
    rcases st with ⟨lim, totals⟩
    by_cases h0 : tIn.getD 0 + tOut.getD 0 ≤ 0
    · simp [record_llm_call, h0] at h
    · cases lim with
      | none => simp [record_llm_call, h0] at h
      | some L =>
          by_cases hgt : L < (aget r totals).getD 0 + (tIn.getD 0 + tOut.getD 0)
          · simp [record_llm_call, h0, hgt]
          · simp [record_llm_call, h0, hgt] at h
  · intro h
    rcases st with ⟨lim, totals⟩
    simp [record_llm_call, h]
  · intro L tIn2 tOut2 hL hsome hpos hle
    rcases st with ⟨lim, totals⟩
    simp only at hL hle
    subst hL
    by_cases h0 : tIn.getD 0 + tOut.getD 0 ≤ 0
    · simp [record_llm_call, h0] at hsome
    · by_cases hgt : L < (aget r totals).getD 0 + (tIn.getD 0 + tOut.getD 0)
      · simp [record_llm_call, h0, hgt, not_le.mpr hpos, not_lt.mpr hle]
      · simp [record_llm_call, h0, hgt] at hsome

/-- Witness for C10 at a concrete state: budget 10, 8 tokens already
recorded for run r; a 5-token call raises and leaves the total at 8, after
which a 2-token call succeeds. -/
theorem cost_limiter_overbudget_no_accumulate_witness :
    (record_llm_call ⟨some 10, [("r", 8)]⟩ "r" (some 5) none).1 = ⟨some 10, [("r", 8)]⟩
    ∧ (record_llm_call (record_llm_call ⟨some 10, [("r", 8)]⟩ "r" (some 5) none).1
        "r" (some 2) none).2 = none := by
  refine ⟨?_, ?_⟩
  · exact (cost_limiter_overbudget_no_accumulate ⟨some 10, [("r", 8)]⟩ "r" (some 5) none).1
      "ERR_COST_LIMIT_EXCEEDED" (by decide)
  · exact (cost_limiter_overbudget_no_accumulate ⟨some 10, [("r", 8)]⟩ "r" (some 5) none).2.2
      10 (some 2) none rfl (by decide) (by decide) (by decide)

/-! ## C4 — node kind inference -/

/-- C4 counterexample: a node of declared type `widget` with an attached
component of type `llm`.  The claim says the component type becomes the
node kind; the builder instead leaves the kind `widget` (the fallback only
fires for declared types component/node/task) and fails with
`ERR_NODE_TYPE`. -/
theorem build_node_kind_counterexample :
    build_node_kind "widget" (some "llm") = Except.error "ERR_NODE_TYPE"
    ∧ Except.error (ε := String) "ERR_NODE_TYPE" ≠ Except.ok "llm" :=
  ⟨rfl, fun h => by cases h⟩

theorem not_true_of_eq_false {b : Bool} (h : b = false) : ¬ b = true := by
  rw [h]
  exact Bool.false_ne_true

theorem contains_true_iff {l : List String} {a : String} :
    l.contains a = true ↔ a ∈ l := List.elem_iff

theorem contains_of_mem {l : List String} {a : String} (h : a ∈ l) :
    l.contains a = true := contains_true_iff.mpr h

theorem contains_false_of_not_mem {l : List String} {a : String} (h : a ∉ l) :
    l.contains a = false := by
  cases hc : l.contains a
  · rfl
  · exact absurd (contains_true_iff.mp hc) h

theorem determine_kind_of_five {nt : String} (ct : Option String)
    (h : FIVE_KINDS.contains (py_lower nt) = true) :
    determine_kind nt ct = py_lower nt := by
  unfold determine_kind
  rw [if_pos h]

theorem determine_kind_of_fallback {nt c : String}
    (h5 : FIVE_KINDS.contains (py_lower nt) = false)
    (hcnt : (["component", "node", "task"].contains (py_lower nt)) = true)
    (h5c : FIVE_KINDS.contains (py_lower c) = true) :
    determine_kind nt (some c) = py_lower c := by
  unfold determine_kind
  rw [if_neg (not_true_of_eq_false h5)]
  show (if (["component", "node", "task"].contains (py_lower nt)) = true then
          if FIVE_KINDS.contains (py_lower c) = true then py_lower c else py_lower nt
        else py_lower nt) = py_lower c
  rw [if_pos hcnt, if_pos h5c]

theorem determine_kind_of_other_none {nt : String}
    (h5 : FIVE_KINDS.contains (py_lower nt) = false) :
    determine_kind nt none = py_lower nt := by
  unfold determine_kind
  rw [if_neg (not_true_of_eq_false h5)]

theorem determine_kind_of_other_some {nt c : String}
    (h5 : FIVE_KINDS.contains (py_lower nt) = false)
    (hfail : ((["component", "node", "task"].contains (py_lower nt))
      && FIVE_KINDS.contains (py_lower c)) = false) :
    determine_kind nt (some c) = py_lower nt := by
  unfold determine_kind
  rw [if_neg (not_true_of_eq_false h5)]
  show (if (["component", "node", "task"].contains (py_lower nt)) = true then
          if FIVE_KINDS.contains (py_lower c) = true then py_lower c else py_lower nt
        else py_lower nt) = py_lower nt
  by_cases hm : (["component", "node", "task"].contains (py_lower nt)) = true
  · rw [hm, Bool.true_and] at hfail
    rw [if_pos hm, if_neg (not_true_of_eq_false hfail)]
  · rw [if_neg hm]

theorem build_node_kind_eq (nt : String) (ct : Option String) :
    build_node_kind nt ct =
      (if SUPPORTED_KINDS.contains (determine_kind nt ct) = true then
        Except.ok (determine_kind nt ct)
      else Except.error "ERR_NODE_TYPE") := rfl

/-- C4 amended: the declared type (lowercased) wins when it is one of the
five special kinds; the component type is consulted only when the declared
type is component, node or task; otherwise the kind stays the declared
type, which is accepted when it equals `component` and is fatal with
`ERR_NODE_TYPE` in every other case — in particular a node of unrecognized
type never inherits its component kind. -/
theorem build_node_kind_amended (nt : String) (ct : Option String) :
    (py_lower nt ∈ FIVE_KINDS →
      build_node_kind nt ct = Except.ok (py_lower nt))
    ∧ (py_lower nt ∉ FIVE_KINDS →
        ∀ c, ct = some c →
        py_lower nt ∈ ["component", "node", "task"] →
        py_lower c ∈ FIVE_KINDS →
        build_node_kind nt ct = Except.ok (py_lower c))
    ∧ (py_lower nt ∉ FIVE_KINDS →
        (∀ c, ct = some c →
          py_lower nt ∈ ["component", "node", "task"] → py_lower c ∉ FIVE_KINDS) →
        build_node_kind nt ct =
          (if py_lower nt = "component" then Except.ok "component"
           else Except.error "ERR_NODE_TYPE")) := by
  have hcons : SUPPORTED_KINDS = "component" :: FIVE_KINDS := rfl
  refine ⟨?_, ?_, ?_⟩
  · intro h5
    rw [build_node_kind_eq, determine_kind_of_five ct (contains_of_mem h5),
      if_pos (contains_of_mem (by rw [hcons]; exact List.mem_cons_of_mem _ h5))]
  · intro h5 c hc hcnt h5c
    subst hc
    rw [build_node_kind_eq,
      determine_kind_of_fallback (contains_false_of_not_mem h5)
        (contains_of_mem hcnt) (contains_of_mem h5c),
      if_pos (contains_of_mem (by rw [hcons]; exact List.mem_cons_of_mem _ h5c))]
  · intro h5 hno
    have hkind : determine_kind nt ct = py_lower nt := by
      cases ct with
      | none => exact determine_kind_of_other_none (contains_false_of_not_mem h5)
      | some c =>
          refine determine_kind_of_other_some (contains_false_of_not_mem h5) ?_
          by_cases hm : py_lower nt ∈ ["component", "node", "task"]
          · rw [contains_of_mem hm, Bool.true_and]
            exact contains_false_of_not_mem (hno c rfl hm)
          · rw [contains_false_of_not_mem hm, Bool.false_and]
    rw [build_node_kind_eq, hkind]
    by_cases hcomp : py_lower nt = "component"
    · rw [if_pos hcomp, hcomp]
      rw [if_pos (by decide)]
    · rw [if_neg hcomp]
      have hsup : SUPPORTED_KINDS.contains (py_lower nt) = false := by
        refine contains_false_of_not_mem ?_
        rw [hcons]
        intro hmem
        rcases List.mem_cons.mp hmem with h | h
        · exact hcomp h
        · exact h5 h
      rw [if_neg (not_true_of_eq_false hsup)]

/-- Witness for C4 amended at concrete inputs: a declared `llm` node keeps
its kind, a `task` node with a `tool` component becomes a tool node, and a
bare `node` kind is fatal. -/
theorem build_node_kind_amended_witness :
    build_node_kind "llm" none = Except.ok "llm"
    ∧ build_node_kind "task" (some "tool") = Except.ok "tool"
    ∧ build_node_kind "node" none = Except.error "ERR_NODE_TYPE" := by
  refine ⟨?_, ?_, ?_⟩
  · exact (build_node_kind_amended "llm" none).1 (by decide)
  · exact (build_node_kind_amended "task" (some "tool")).2.1 (by decide) "tool" rfl
      (by decide) (by decide)
  · have := (build_node_kind_amended "node" none).2.2 (by decide)
      (fun c hc => by cases hc)
    simpa using this

/-! ## C1 — cancel token after terminal outcomes -/

/-- C1 counterexample: a successful run returns its result with the cancel
token still unset (no path in `Scheduler.run` cancels the token on
success), refuting the claim that the token is set after any terminal
outcome. -/
theorem scheduler_run_success_token_counterexample :
    (scheduler_run (ExecOutcome.success [] []) false).result = Except.ok ([], [])
    ∧ (scheduler_run (ExecOutcome.success [] []) false).token_cancelled = false :=
  ⟨rfl, rfl⟩

/-- C1 amended: after every failing terminal outcome (error, timeout or
cancellation) `Scheduler.run` sets the cancel token before re-raising; a
successful run leaves the token exactly as execution left it, so it is not
set by `run` itself on success. -/
theorem scheduler_run_token_amended (out : ExecOutcome) (tok : Bool) :
    ((∀ o ns, out ≠ ExecOutcome.success o ns) →
      (scheduler_run out tok).token_cancelled = true)
    ∧ (∀ o ns, out = ExecOutcome.success o ns →
        (scheduler_run out tok).token_cancelled = tok) := by
  constructor
  · intro h
    cases out with
    | success o ns => exact absurd rfl (h o ns)
    | timeout => rfl
    | cancelled => rfl
    | graphErr code => rfl
    | pyErr msg => rfl
  · intro o ns h
    subst h
    rfl

/-- Witness for C1 amended: a timed-out run has its token set, a
successful run keeps an unset token. -/
theorem scheduler_run_token_amended_witness :
    (scheduler_run ExecOutcome.timeout false).token_cancelled = true
    ∧ (scheduler_run (ExecOutcome.success [] []) false).token_cancelled = false := by
  constructor
  · exact (scheduler_run_token_amended ExecOutcome.timeout false).1
      (fun o ns h => by cases h)
  · exact (scheduler_run_token_amended (ExecOutcome.success [] []) false).2 [] [] rfl

/-! ## C5 — node failure handling -/

/-- C5 counterexample: a node failing with a `GraphExecutionError` while
`cancel_on_error` is false.  The claim says every failing node then stores
empty outputs, schedules no successors and leaves the token alone; the
code instead cancels the token, records nothing and re-raises. -/
theorem run_node_graph_error_counterexample :
    (run_node ⟨"n", "tool", [], []⟩ (CompOutcome.graphErr "ERR_MAP_OVER_NOT_ARRAY")
        false false []).token_cancelled = true
    ∧ (run_node ⟨"n", "tool", [], []⟩ (CompOutcome.graphErr "ERR_MAP_OVER_NOT_ARRAY")
        false false []).node_states = []
    ∧ (run_node ⟨"n", "tool", [], []⟩ (CompOutcome.graphErr "ERR_MAP_OVER_NOT_ARRAY")
        false false []).next =
        Except.error (PyErr.graphExec "ERR_MAP_OVER_NOT_ARRAY") :=
  ⟨rfl, rfl, rfl⟩

/-- C5 amended: a node failure emits `error.raised` then
`node.finish{status:error}`.  When `cancel_on_error` is true the token is
cancelled and the error propagates.  When `cancel_on_error` is false the
continue-with-empty-outputs behaviour applies only to exceptions that are
not `GraphExecutionError`s; a `GraphExecutionError` always cancels the
token and propagates, whatever the flag. -/
theorem run_node_failure_amended (spec : RNodeSpec) (cOE tok : Bool)
    (states : List (String × Dict)) :
    (∀ msg,
      (run_node spec (CompOutcome.pyErr msg) cOE tok states).events =
        [Event.node_start spec.id, Event.error_raised spec.id msg,
         Event.node_finish spec.id "error" []]
      ∧ (cOE = true →
          run_node spec (CompOutcome.pyErr msg) cOE tok states =
            ⟨[Event.node_start spec.id, Event.error_raised spec.id msg,
              Event.node_finish spec.id "error" []],
             states, true, Except.error (PyErr.graphExec "ERR_NODE_RUNTIME")⟩)
      ∧ (cOE = false →
          run_node spec (CompOutcome.pyErr msg) cOE tok states =
            ⟨[Event.node_start spec.id, Event.error_raised spec.id msg,
              Event.node_finish spec.id "error" []],
             aset spec.id [] states, tok, Except.ok []⟩))
    ∧ (∀ code,
        run_node spec (CompOutcome.graphErr code) cOE tok states =
          ⟨[Event.node_start spec.id, Event.error_raised spec.id code,
            Event.node_finish spec.id "error" []],
           states, true, Except.error (PyErr.graphExec code)⟩) := by
  constructor
  · intro msg
    refine ⟨?_, ?_, ?_⟩
    · cases cOE <;> rfl
    · intro h; subst h; rfl
    · intro h; subst h; rfl
  · intro code
    rfl

/-- Witness for C5 amended at a concrete node: a generic exception with
`cancel_on_error=false` records empty outputs, returns no successors and
keeps the token unset. -/
theorem run_node_failure_amended_witness :
    run_node ⟨"n", "tool", [], []⟩ (CompOutcome.pyErr "boom") false false [] =
      ⟨[Event.node_start "n", Event.error_raised "n" "boom",
        Event.node_finish "n" "error" []],
       [("n", [])], false, Except.ok []⟩ :=
  ((run_node_failure_amended ⟨"n", "tool", [], []⟩ false false []).1 "boom").2.2 rfl

/-! ## C6 — router successor selection -/

/-- C6: a router node selects its single successor from its routes table
via the string value of the `route` output; a missing state or missing or
None route value fails with `ERR_ROUTER_NO_MATCH`, an unknown route falls
back to `routes["default"]`, a missing default fails with
`ERR_ROUTER_NO_MATCH`, and the `next_nodes` field never influences the
selection. -/
theorem router_selection_spec (spec : RNodeSpec) (st : Option Dict)
    (hk : spec.kind = "router") :
    (st = none → select_next spec st = Except.error "ERR_ROUTER_NO_MATCH")
    ∧ (∀ outputs, st = some outputs →
        (aget "route" outputs = none →
          select_next spec st = Except.error "ERR_ROUTER_NO_MATCH")
        ∧ (aget "route" outputs = some Value.vnull →
          select_next spec st = Except.error "ERR_ROUTER_NO_MATCH")
        ∧ (∀ v, aget "route" outputs = some v → v ≠ Value.vnull →
            (∀ t, aget (pyStr v) spec.routes = some t →
              select_next spec st = Except.ok [t])
            ∧ (aget (pyStr v) spec.routes = none →
                (∀ d, aget "default" spec.routes = some d →
                  select_next spec st = Except.ok [d])
                ∧ (aget "default" spec.routes = none →
                  select_next spec st = Except.error "ERR_ROUTER_NO_MATCH"))))
    ∧ (∀ ns, select_next ⟨spec.id, spec.kind, spec.routes, ns⟩ st =
        select_next spec st) := by
  refine ⟨?_, ?_, ?_⟩
  · intro h
    subst h
    simp [select_next, hk]
  · intro outputs hst
    subst hst
    refine ⟨?_, ?_, ?_⟩
    · intro hr
      simp [select_next, hk, hr]
    · intro hr
      simp [select_next, hk, hr]
    · intro v hr hv
      constructor
      · intro t ht
        cases v <;> simp_all [select_next, hk]
      · intro hmiss
        constructor
        · intro d hd
          cases v <;> simp_all [select_next, hk]
        · intro hdmiss
          cases v <;> simp_all [select_next, hk]
  · intro ns
    cases st with
    | none => simp [select_next, hk]
    | some outputs =>
        simp [select_next, hk]

/-- Witness for C6 at a concrete router: the route value picks the mapped
successor and the default key catches unknown routes. -/
theorem router_selection_spec_witness :
    select_next ⟨"r", "router", [("a", "nodeA"), ("default", "nodeD")], ["ignored"]⟩
      (some [("route", Value.vstr "a")]) = Except.ok ["nodeA"]
    ∧ select_next ⟨"r", "router", [("a", "nodeA"), ("default", "nodeD")], ["ignored"]⟩
      (some [("route", Value.vstr "zzz")]) = Except.ok ["nodeD"] := by
  constructor
  · exact (((router_selection_spec
      ⟨"r", "router", [("a", "nodeA"), ("default", "nodeD")], ["ignored"]⟩
      (some [("route", Value.vstr "a")]) rfl).2.1 [("route", Value.vstr "a")] rfl).2.2
      (Value.vstr "a") rfl (fun h => by cases h)).1 "nodeA" rfl
  · exact ((((router_selection_spec
      ⟨"r", "router", [("a", "nodeA"), ("default", "nodeD")], ["ignored"]⟩
      (some [("route", Value.vstr "zzz")]) rfl).2.1 [("route", Value.vstr "zzz")] rfl).2.2
      (Value.vstr "zzz") rfl (fun h => by cases h)).2 rfl).1 "nodeD" rfl


/-! ## C2 — graph output collection -/

theorem collect_outputs_aux_mono (states : List (String × Dict)) :
    ∀ (l : List OutputMapping) (acc m : Dict),
      collect_outputs_aux states acc l = Except.ok m →
      ∀ k, (aget k acc).isSome = true → (aget k m).isSome = true := by
  intro l
  induction l with
  | nil =>
      intro acc m h k hk
      simp only [collect_outputs_aux] at h
      cases h
      exact hk
  | cons mp rest ih =>
      intro acc m h k hk
      simp only [collect_outputs_aux] at h
      cases hn : aget mp.node_id states with
      | none => simp only [hn] at h; cases h
      | some outputs =>
          simp only [hn] at h
          cases ho : aget mp.output outputs with
          | none => simp only [ho] at h; cases h
          | some v =>
              simp only [ho] at h
              exact ih (aset mp.key v acc) m h k (aget_aset_isSome mp.key k v acc hk)

theorem collect_outputs_aux_ok_keys (states : List (String × Dict)) :
    ∀ (l : List OutputMapping) (acc m : Dict),
      collect_outputs_aux states acc l = Except.ok m →
      ∀ mp ∈ l, (aget mp.key m).isSome = true := by
  intro l
  induction l with
  | nil => intro acc m _ mp hmp; cases hmp
  | cons hd rest ih =>
      intro acc m h mp hmp
      simp only [collect_outputs_aux] at h
      cases hn : aget hd.node_id states with
      | none => simp only [hn] at h; cases h
      | some outputs =>
          simp only [hn] at h
          cases ho : aget hd.output outputs with
          | none => simp only [ho] at h; cases h
          | some v =>
              simp only [ho] at h
              rcases List.mem_cons.mp hmp with hmp1 | hmp2
              · subst hmp1
                exact collect_outputs_aux_mono states rest (aset mp.key v acc) m h
                  mp.key (by rw [aget_aset_same]; rfl)
              · exact ih (aset hd.key v acc) m h mp hmp2

theorem collect_outputs_aux_ok_iff (states : List (String × Dict)) :
    ∀ (l : List OutputMapping) (acc : Dict),
      ((∃ m, collect_outputs_aux states acc l = Except.ok m) ↔
      ∀ mp ∈ l, ∃ st, aget mp.node_id states = some st
        ∧ (aget mp.output st).isSome = true) := by
  intro l
  induction l with
  | nil =>
      intro acc
      constructor
      · intro _ mp hmp; cases hmp
      · intro _; exact ⟨acc, rfl⟩
  | cons hd rest ih =>
      intro acc
      constructor
      · intro ⟨m, h⟩ mp hmp
        simp only [collect_outputs_aux] at h
        cases hn : aget hd.node_id states with
        | none => simp only [hn] at h; cases h
        | some outputs =>
            simp only [hn] at h
            cases ho : aget hd.output outputs with
            | none => simp only [ho] at h; cases h
            | some v =>
                simp only [ho] at h
                rcases List.mem_cons.mp hmp with hmp1 | hmp2
                · subst hmp1
                  exact ⟨outputs, hn, by rw [ho]; rfl⟩
                · exact (ih (aset hd.key v acc)).mp ⟨m, h⟩ mp hmp2
      · intro hall
        obtain ⟨st, hn, ho⟩ := hall hd (List.mem_cons_self hd rest)
        obtain ⟨v, hv⟩ := Option.isSome_iff_exists.mp ho
        obtain ⟨m, hm⟩ := (ih (aset hd.key v acc)).mpr
          (fun mp hmp => hall mp (List.mem_cons_of_mem hd hmp))
        refine ⟨m, ?_⟩
        simp only [collect_outputs_aux, hn, hv]
        exact hm

/-- C2 counterexample: a declared graph output whose node state lacks the
referenced output name.  The claim says the run can return a result map
with the declared key merely absent; `_collect_outputs` instead raises
`ERR_NODE_TYPE`, so no result map is returned at all. -/
theorem collect_outputs_counterexample :
    collect_outputs [⟨"k", "n", "missing"⟩] [("n", [])] =
      Except.error "ERR_NODE_TYPE" := rfl

/-- C2 amended: `_collect_outputs` returns a map exactly when every
declared output references an existing node state that contains the
referenced output name, and any returned map contains every declared key;
a run never returns a result map with a declared key absent — it raises
`ERR_EDGE_ENDPOINT_INVALID` or `ERR_NODE_TYPE` instead. -/
theorem collect_outputs_amended (outs : List OutputMapping)
    (states : List (String × Dict)) :
    ((∃ m, collect_outputs outs states = Except.ok m) ↔
      ∀ mp ∈ outs, ∃ st, aget mp.node_id states = some st
        ∧ (aget mp.output st).isSome = true)
    ∧ (∀ m, collect_outputs outs states = Except.ok m →
        ∀ mp ∈ outs, (aget mp.key m).isSome = true) :=
  ⟨collect_outputs_aux_ok_iff states outs [],
   fun m h mp hmp => collect_outputs_aux_ok_keys states outs [] m h mp hmp⟩

/-- Witness for C2 amended: one declared output resolved against a node
state that has the referenced name; the returned map carries the declared
key. -/
theorem collect_outputs_amended_witness :
    collect_outputs [⟨"k", "n", "f"⟩] [("n", [("f", Value.vint 1)])] =
      Except.ok [("k", Value.vint 1)]
    ∧ (aget "k" [("k", Value.vint 1)]).isSome = true := by
  refine ⟨rfl, ?_⟩
  exact (collect_outputs_amended [⟨"k", "n", "f"⟩] [("n", [("f", Value.vint 1)])]).2
    [("k", Value.vint 1)] rfl ⟨"k", "n", "f"⟩ (List.mem_cons_self _ _)

/-! ## C3 — parallel merge policies -/

theorem dfold_cons (kv : String × Value) (l : List (String × Value)) (acc : Dict) :
    dfold (kv :: l) acc = dfold l (aset kv.1 kv.2 acc) := rfl

theorem dfold_append (l1 l2 : List (String × Value)) (acc : Dict) :
    dfold (l1 ++ l2) acc = dfold l2 (dfold l1 acc) :=
  List.foldl_append _ _ _ _

theorem merge_entries_not_error {policy : String} (hp : policy ≠ "error") :
    ∀ (l : List (String × Value)) (acc : Dict),
      merge_entries policy l acc = Except.ok (dfold l acc) := by
  intro l
  induction l with
  | nil => intro acc; rfl
  | cons kv rest ih =>
      intro acc
      obtain ⟨k, v⟩ := kv
      simp only [merge_entries, if_neg hp]
      exact ih (aset k v acc)

theorem merge_branches_overwrite {policy : String} (hp : policy ≠ "error") :
    ∀ (rs : List (String × Dict)) (acc : Dict),
      merge_branches policy rs acc = Except.ok (dfold (rs.flatMap Prod.snd) acc) := by
  intro rs
  induction rs with
  | nil => intro acc; rfl
  | cons br rest ih =>
      intro acc
      obtain ⟨bid, outs⟩ := br
      simp only [merge_branches, merge_entries_not_error hp outs acc]
      rw [ih (dfold outs acc), List.flatMap_cons, dfold_append]

theorem aget_dfold (k : String) :
    ∀ (l : List (String × Value)) (acc : Dict),
      aget k (dfold l acc) =
        (match l.reverse.find? (fun kv => kv.1 == k) with
        | some kv => some kv.2
        | none => aget k acc) := by
  intro l
  induction l with
  | nil => intro acc; rfl
  | cons kv rest ih =>
      intro acc
      obtain ⟨k1, v1⟩ := kv
      rw [dfold_cons, ih (aset k1 v1 acc)]
      simp only [List.reverse_cons, List.find?_append]
      cases hfind : rest.reverse.find? (fun kv => kv.1 == k) with
      | some kv => simp [Option.or]
      | none =>
          simp only [Option.or, List.find?]
          by_cases hk : k1 = k
          · subst hk
            simp [aget_aset_same]
          · have hbeq : (k1 == k) = false := beq_eq_false_iff_ne.mpr hk
            rw [hbeq]
            simp only [List.find?]
            rw [aget_aset_ne (fun h => hk h.symm)]

theorem merge_entries_error_cons (k : String) (v : Value)
    (rest : List (String × Value)) (acc : Dict) :
    merge_entries "error" ((k, v) :: rest) acc =
      (match aget k acc with
       | some u =>
           if veq u v = true then merge_entries "error" rest (aset k v acc)
           else Except.error "ERR_NODE_RUNTIME"
       | none => merge_entries "error" rest (aset k v acc)) := rfl

theorem merge_entries_error_is_runtime :
    ∀ (l : List (String × Value)) (acc : Dict) (e : String),
      merge_entries "error" l acc = Except.error e → e = "ERR_NODE_RUNTIME" := by
  intro l
  induction l with
  | nil => intro acc e h; cases h
  | cons kv rest ih =>
      intro acc e h
      obtain ⟨k, v⟩ := kv
      rw [merge_entries_error_cons] at h
      cases hg : aget k acc with
      | none =>
          simp only [hg] at h
          exact ih (aset k v acc) e h
      | some u =>
          simp only [hg] at h
          by_cases hveq : veq u v = true
          · rw [if_pos hveq] at h
            exact ih (aset k v acc) e h
          · rw [if_neg hveq] at h
            cases h
            rfl

theorem merge_entries_error_conflict :
    ∀ (l : List (String × Value)) (acc : Dict) (k : String) (v u : Value),
      nodup_keys (akeys l) = true → (k, v) ∈ l → aget k acc = some u →
      veq u v = false →
      ∀ acc2, merge_entries "error" l acc ≠ Except.ok acc2 := by
  intro l
  induction l with
  | nil => intro acc k v u _ hmem; cases hmem
  | cons kv rest ih =>
      intro acc k v u hnd hmem hacc hveq acc2 h
      obtain ⟨k1, v1⟩ := kv
      simp only [akeys_cons, nodup_keys, Bool.and_eq_true,
        Bool.not_eq_true'] at hnd
      obtain ⟨hk1, hndrest⟩ := hnd
      rw [merge_entries_error_cons] at h
      rcases List.mem_cons.mp hmem with h1 | h2
      · have hk : k = k1 := congrArg Prod.fst h1
        have hv : v = v1 := congrArg Prod.snd h1
        subst hk
        subst hv
        simp only [hacc] at h
        rw [if_neg (by simp [hveq])] at h
        cases h
      · have hkmem : k ∈ akeys rest := List.mem_map_of_mem Prod.fst h2
        have hk1k : k1 ≠ k := by
          intro he
          subst he
          have hc : (List.map Prod.fst rest).contains k1 = true :=
            contains_of_mem hkmem
          rw [hk1] at hc
          cases hc
        have hacc2 : aget k (aset k1 v1 acc) = some u := by
          rw [aget_aset_ne (fun hh => hk1k hh.symm)]
          exact hacc
        cases hg : aget k1 acc with
        | none =>
            simp only [hg] at h
            exact ih (aset k1 v1 acc) k v u hndrest h2 hacc2 hveq acc2 h
        | some u1 =>
            simp only [hg] at h
            by_cases hveq1 : veq u1 v1 = true
            · rw [if_pos hveq1] at h
              exact ih (aset k1 v1 acc) k v u hndrest h2 hacc2 hveq acc2 h
            · rw [if_neg hveq1] at h
              cases h

theorem dfold_absent_append :
    ∀ (l : List (String × Value)) (acc : Dict),
      (∀ kv ∈ l, aget kv.1 acc = none) →
      nodup_keys (akeys l) = true →
      dfold l acc = acc ++ l := by
  intro l
  induction l with
  | nil => intro acc _ _; simp [dfold]
  | cons kv rest ih =>
      intro acc habs hnd
      obtain ⟨k1, v1⟩ := kv
      simp only [akeys_cons, nodup_keys, Bool.and_eq_true,
        Bool.not_eq_true'] at hnd
      obtain ⟨hk1, hndrest⟩ := hnd
      have habs1 : aget k1 acc = none := habs (k1, v1) (List.mem_cons_self _ _)
      have habs2 : ∀ kv ∈ rest, aget kv.1 (aset k1 v1 acc) = none := by
        intro kv hkv
        have hkmem : kv.1 ∈ akeys rest := List.mem_map_of_mem Prod.fst hkv
        have hne : kv.1 ≠ k1 := by
          intro he
          rw [← he] at hk1
          have hc : (List.map Prod.fst rest).contains kv.1 = true :=
            contains_of_mem hkmem
          rw [hk1] at hc
          cases hc
        rw [aget_aset_ne hne]
        exact habs kv (List.mem_cons_of_mem _ hkv)
      rw [dfold_cons, ih (aset k1 v1 acc) habs2 hndrest,
        aset_absent_append v1 habs1, List.append_assoc]
      rfl

theorem merge_entries_error_clean :
    ∀ (l : List (String × Value)) (acc : Dict),
      (∀ kv ∈ l, aget kv.1 acc = none) →
      nodup_keys (akeys l) = true →
      merge_entries "error" l acc = Except.ok (dfold l acc) := by
  intro l
  induction l with
  | nil => intro acc _ _; rfl
  | cons kv rest ih =>
      intro acc habs hnd
      obtain ⟨k1, v1⟩ := kv
      simp only [akeys_cons, nodup_keys, Bool.and_eq_true,
        Bool.not_eq_true'] at hnd
      obtain ⟨hk1, hndrest⟩ := hnd
      have habs1 : aget k1 acc = none := habs (k1, v1) (List.mem_cons_self _ _)
      have habs2 : ∀ kv ∈ rest, aget kv.1 (aset k1 v1 acc) = none := by
        intro kv hkv
        have hkmem : kv.1 ∈ akeys rest := List.mem_map_of_mem Prod.fst hkv
        have hne : kv.1 ≠ k1 := by
          intro he
          rw [← he] at hk1
          have hc : (List.map Prod.fst rest).contains kv.1 = true :=
            contains_of_mem hkmem
          rw [hk1] at hc
          cases hc
        rw [aget_aset_ne hne]
        exact habs kv (List.mem_cons_of_mem _ hkv)
      rw [merge_entries_error_cons]
      simp only [habs1]
      rw [dfold_cons]
      exact ih (aset k1 v1 acc) habs2 hndrest

/-- C3 counterexample: two branches with disjoint single-key outputs under
merge policy `overwrite`.  The claim says the node outputs are the plain
shallow merge, not nested under any extra key; the code nests the merged
map under a `results` key for every policy
(`return {"results": merged_outputs}, ...`). -/
theorem parallel_overwrite_counterexample :
    execute_parallel_merge "overwrite"
        [("b1", [("a", Value.vint 1)]), ("b2", [("b", Value.vint 2)])] =
      Except.ok [("results", Value.vobj [("a", Value.vint 1), ("b", Value.vint 2)])]
    ∧ ([("results", Value.vobj [("a", Value.vint 1), ("b", Value.vint 2)])] : Dict) ≠
        [("a", Value.vint 1), ("b", Value.vint 2)] := by
  refine ⟨rfl, ?_⟩
  intro h
  have := congrArg List.length h
  simp at this

/-- C3 amended: with `namespace` the node outputs are
`{results: {branch_id: branch_outputs}}`; with `overwrite` they are
`{results: M}` where `M` is the shallow merge of the branch output maps in
completion order, later branches winning on key collisions (the merged
value at a key is the last occurrence across the concatenated branch
entries); with `error` two branches producing the same key with
Python-unequal values raise `ERR_NODE_RUNTIME`.  All three policies nest
the merge under the `results` key. -/
theorem parallel_merge_amended :
    (∀ rs : List (String × Dict),
      execute_parallel_merge "namespace" rs =
        Except.ok [("results", Value.vobj (rs.map (fun p => (p.1, Value.vobj p.2))))])
    ∧ (∀ rs : List (String × Dict),
        execute_parallel_merge "overwrite" rs =
          Except.ok [("results", Value.vobj (dfold (rs.flatMap Prod.snd) []))])
    ∧ (∀ (rs : List (String × Dict)) (k : String),
        aget k (dfold (rs.flatMap Prod.snd) []) =
          ((rs.flatMap Prod.snd).reverse.find? (fun kv => kv.1 == k)).map Prod.snd)
    ∧ (∀ (b1 b2 : String) (o1 o2 : Dict) (k : String) (v1 v2 : Value),
        nodup_keys (akeys o1) = true → nodup_keys (akeys o2) = true →
        aget k o1 = some v1 → (k, v2) ∈ o2 → veq v1 v2 = false →
        execute_parallel_merge "error" [(b1, o1), (b2, o2)] =
          Except.error "ERR_NODE_RUNTIME") := by
  refine ⟨fun rs => rfl, ?_, ?_, ?_⟩
  · intro rs
    simp only [execute_parallel_merge]
    rw [if_neg (by decide), merge_branches_overwrite (by decide) rs []]
  · intro rs k
    rw [aget_dfold k]
    cases hfind : (rs.flatMap Prod.snd).reverse.find? (fun kv => kv.1 == k) with
    | some kv => rfl
    | none => rfl
  · intro b1 b2 o1 o2 k v1 v2 hnd1 hnd2 hget hmem hveq
    simp only [execute_parallel_merge]
    rw [if_neg (by decide)]
    have hclean : merge_entries "error" o1 [] = Except.ok o1 := by
      rw [merge_entries_error_clean o1 [] (fun kv _ => rfl) hnd1,
        dfold_absent_append o1 [] (fun kv _ => rfl) hnd1]
      rfl
    have hfail : ∀ acc2, merge_entries "error" o2 o1 ≠ Except.ok acc2 :=
      merge_entries_error_conflict o2 o1 k v2 v1 hnd2 hmem hget hveq
    simp only [merge_branches, hclean]
    cases hres : merge_entries "error" o2 o1 with
    | ok acc2 => exact absurd hres (hfail acc2)
    | error e =>
        have he : e = "ERR_NODE_RUNTIME" := merge_entries_error_is_runtime o2 o1 e hres
        subst he
        rfl

/-- Witness for C3 amended at concrete branches: the conflict clause fires
on two branches writing unequal values to the same key. -/
theorem parallel_merge_amended_witness :
    execute_parallel_merge "error"
        [("b1", [("x", Value.vint 1)]), ("b2", [("x", Value.vint 2)])] =
      Except.error "ERR_NODE_RUNTIME" :=
  parallel_merge_amended.2.2.2 "b1" "b2" [("x", Value.vint 1)] [("x", Value.vint 2)]
    "x" (Value.vint 1) (Value.vint 2) rfl rfl rfl (List.mem_cons_self _ _) rfl

/-! ## C7 — event bus sequence stamping -/

/-- C7 counterexample: a first emit whose payload already carries a
`sequence` key.  `setdefault` keeps the caller value 5 while the counter
still advances, so the stamped sequences for the run are 5 then 1 — not a
contiguous prefix of the naturals starting at 0. -/
theorem bus_sequence_counterexample :
    ((bus_trace ⟨[]⟩ [[("run_id", Value.vstr "r"), ("sequence", Value.vint 5)],
        [("run_id", Value.vstr "r")]]).2).map (fun d => aget "sequence" d) =
      [some (Value.vint 5), some (Value.vint 1)]
    ∧ [some (Value.vint 5), some (Value.vint 1)] ≠
        [some (Value.vint 0), some (Value.vint 1)] := by
  refine ⟨rfl, ?_⟩
  intro h
  simp at h

/-- C7 amended: provided no emitted payload carries a pre-set `sequence`
key, the sequence numbers stamped on the events of a given run id form the
contiguous range starting at that run's current counter — hence, on a
fresh bus, a contiguous strictly increasing prefix of the naturals from 0,
with exactly one number assigned per emit call before any sink is invoked.
A caller-supplied `sequence` key wins over the stamp (`setdefault`) while
the counter still advances. -/
theorem bus_sequence_amended :
    ∀ (ps : List Dict) (st : BusState) (r : String),
      (∀ p ∈ ps, aget "sequence" p = none ∧
        ∃ v, aget "run_id" p = some v ∧ pyFalsy v = false) →
      (stamped_for r (bus_trace st ps).2).map (fun d => aget "sequence" d) =
        (List.range' ((aget r st.counters).getD 0)
          (stamped_for r (bus_trace st ps).2).length).map
          (fun n => some (Value.vint (Int.ofNat n))) := by
  intro ps
  induction ps with
  | nil => intro st r _; rfl
  | cons p rest ih =>
      intro st r hall
      obtain ⟨hseq, v, hrid, hfalsy⟩ := hall p (List.mem_cons_self _ _)
      have hrest := fun q hq => hall q (List.mem_cons_of_mem _ hq)
      have hemit : bus_emit st p =
          Except.ok
            (⟨aset (pyStr v) ((aget (pyStr v) st.counters).getD 0 + 1) st.counters⟩,
             aset "sequence"
               (Value.vint (Int.ofNat ((aget (pyStr v) st.counters).getD 0))) p) := by
        simp only [bus_emit, hrid]
        rw [if_neg (not_true_of_eq_false hfalsy)]
        rw [hseq]
        rfl
      have htr : bus_trace st (p :: rest) =
          ((bus_trace ⟨aset (pyStr v)
              ((aget (pyStr v) st.counters).getD 0 + 1) st.counters⟩ rest).1,
           aset "sequence"
             (Value.vint (Int.ofNat ((aget (pyStr v) st.counters).getD 0))) p ::
           (bus_trace ⟨aset (pyStr v)
              ((aget (pyStr v) st.counters).getD 0 + 1) st.counters⟩ rest).2) := by
        simp only [bus_trace, hemit]
      rw [htr]
      have hridst : aget "run_id"
          (aset "sequence"
            (Value.vint (Int.ofNat ((aget (pyStr v) st.counters).getD 0))) p) =
          some v := by
        rw [aget_aset_ne (by decide)]
        exact hrid
      by_cases hr : pyStr v = r
      · have hkeep : stamped_for r
            (aset "sequence"
              (Value.vint (Int.ofNat ((aget (pyStr v) st.counters).getD 0))) p ::
             (bus_trace ⟨aset (pyStr v)
                ((aget (pyStr v) st.counters).getD 0 + 1) st.counters⟩ rest).2) =
            aset "sequence"
              (Value.vint (Int.ofNat ((aget (pyStr v) st.counters).getD 0))) p ::
            stamped_for r ((bus_trace ⟨aset (pyStr v)
                ((aget (pyStr v) st.counters).getD 0 + 1) st.counters⟩ rest).2) := by
          unfold stamped_for
          rw [List.filter_cons]
          rw [if_pos (by rw [hridst]; simp [hr])]
        rw [hkeep]
        have hcount : (aget r
            (⟨aset (pyStr v) ((aget (pyStr v) st.counters).getD 0 + 1)
              st.counters⟩ : BusState).counters).getD 0 =
            (aget (pyStr v) st.counters).getD 0 + 1 := by
          simp only
          rw [hr, aget_aset_same]
          rfl
        have ihr := ih ⟨aset (pyStr v) ((aget (pyStr v) st.counters).getD 0 + 1)
            st.counters⟩ r hrest
        rw [hcount] at ihr
        simp only [List.map_cons, List.length_cons, ihr]
        rw [List.range'_succ]
        simp only [List.map_cons]
        congr 1
        rw [aget_aset_same, hr]
        rw [hr]
      · have hdrop : stamped_for r
            (aset "sequence"
              (Value.vint (Int.ofNat ((aget (pyStr v) st.counters).getD 0))) p ::
             (bus_trace ⟨aset (pyStr v)
                ((aget (pyStr v) st.counters).getD 0 + 1) st.counters⟩ rest).2) =
            stamped_for r ((bus_trace ⟨aset (pyStr v)
                ((aget (pyStr v) st.counters).getD 0 + 1) st.counters⟩ rest).2) := by
          unfold stamped_for
          rw [List.filter_cons]
          rw [if_neg (by rw [hridst]; simp [hr])]
        rw [hdrop]
        have hcount : (aget r
            (⟨aset (pyStr v) ((aget (pyStr v) st.counters).getD 0 + 1)
              st.counters⟩ : BusState).counters).getD 0 =
            (aget r st.counters).getD 0 := by
          simp only
          rw [aget_aset_ne (fun h => hr h.symm)]
        have ihr := ih ⟨aset (pyStr v) ((aget (pyStr v) st.counters).getD 0 + 1)
            st.counters⟩ r hrest
        rw [hcount] at ihr
        exact ihr

/-- Witness for C7 amended: two plain emits for run r on a fresh bus get
stamped 0 and 1. -/
theorem bus_sequence_amended_witness :
    (stamped_for "r" (bus_trace ⟨[]⟩
        [[("run_id", Value.vstr "r")], [("run_id", Value.vstr "r")]]).2).map
      (fun d => aget "sequence" d) =
      [some (Value.vint 0), some (Value.vint 1)] := by
  have h := bus_sequence_amended
    [[("run_id", Value.vstr "r")], [("run_id", Value.vstr "r")]] ⟨[]⟩ "r"
    (by
      intro p hp
      rcases List.mem_cons.mp hp with h1 | h1
      · subst h1
        exact ⟨rfl, Value.vstr "r", rfl, rfl⟩
      · rcases List.mem_cons.mp h1 with h2 | h2
        · subst h2
          exact ⟨rfl, Value.vstr "r", rfl, rfl⟩
        · cases h2)
  exact h.trans rfl

/-! ## C8 — map with collect_errors -/

theorem map_loop_collect (comp : Nat → Value → Except String Dict) :
    ∀ (pending : List (Nat × Value)) (res : List (Nat × Dict))
      (errs : List (Nat × String)),
      map_loop comp "collect_errors" pending res errs =
        Except.ok
          (res ++ pending.filterMap (fun p =>
            match comp p.1 p.2 with
            | Except.ok outs => some (p.1, outs)
            | Except.error _ => none),
           errs ++ pending.filterMap (fun p =>
            match comp p.1 p.2 with
            | Except.ok _ => none
            | Except.error e => some (p.1, e))) := by
  intro pending
  induction pending with
  | nil => intro res errs; simp [map_loop]
  | cons p rest ih =>
      intro res errs
      obtain ⟨i, item⟩ := p
      cases hc : comp i item with
      | ok outs =>
          simp only [map_loop, hc]
          rw [ih (res ++ [(i, outs)]) errs]
          simp only [List.filterMap_cons, hc]
          rw [List.append_assoc]
          rfl
      | error msg =>
          simp only [map_loop, hc]
          rw [if_neg (by decide), if_pos trivial, ih res (errs ++ [(i, msg)])]
          simp only [List.filterMap_cons, hc]
          rw [List.append_assoc]
          rfl

theorem insert_by_fst_head {α : Type} (p : Nat × α) (l : List (Nat × α))
    (h : List.Chain' (· ≤ ·) (List.map Prod.fst (p :: l))) :
    insert_by_fst p l = p :: l := by
  cases l with
  | nil => rfl
  | cons q rest =>
      have hle : p.1 ≤ q.1 := by
        simp only [List.map_cons, List.chain'_cons] at h
        exact h.1
      simp [insert_by_fst, hle]

theorem sort_by_fst_eq_self {α : Type} :
    ∀ (l : List (Nat × α)),
      List.Chain' (· ≤ ·) (List.map Prod.fst l) → sort_by_fst l = l := by
  intro l
  induction l with
  | nil => intro _; rfl
  | cons p rest ih =>
      intro h
      have htail : List.Chain' (· ≤ ·) (List.map Prod.fst rest) := by
        have := List.Chain'.tail h
        simpa using this
      simp only [sort_by_fst, ih htail]
      exact insert_by_fst_head p rest h

theorem filterMap_fst_sublist {α : Type} (h : Nat × α → Option Nat)
    (hpres : ∀ a b, h a = some b → b = a.1) :
    ∀ l : List (Nat × α), (l.filterMap h).Sublist (l.map Prod.fst) := by
  intro l
  induction l with
  | nil => simp
  | cons a rest ih =>
      simp only [List.filterMap_cons, List.map_cons]
      cases hc : h a with
      | none => exact ih.cons a.1
      | some b =>
          have hb : b = a.1 := hpres a b hc
          subst hb
          exact ih.cons₂ a.1

theorem map_survivors_sorted (comp : Nat → Value → Except String Dict)
    (items : List Value) :
    List.Chain' (· ≤ ·) (List.map Prod.fst (map_survivors_spec comp items)) := by
  unfold map_survivors_spec
  rw [List.map_filterMap]
  have hsub : (items.enum.filterMap (fun p => Option.map Prod.fst
      (match comp p.1 p.2 with
       | Except.ok outs => some (p.1, outs)
       | Except.error _ => none))).Sublist (items.enum.map Prod.fst) := by
    refine filterMap_fst_sublist _ ?_ items.enum
    intro a b hab
    cases hc : comp a.1 a.2 with
    | ok outs => rw [hc] at hab; cases hab; rfl
    | error e => rw [hc] at hab; cases hab
  have hpw : List.Pairwise (· ≤ ·) (items.enum.map Prod.fst) := by
    rw [List.enum_map_fst]
    exact (List.pairwise_lt_range items.length).imp le_of_lt
  exact (hpw.sublist hsub).chain'

/-- C8: a map node with failure mode `collect_errors` over a finite list
never raises: every failing iteration contributes an `{index, error}`
entry, the surviving outputs are kept in index order, the node outputs are
`{result_key: survivors, errors: [...]}` with the raw result being the
survivor list, and — since `_execute_map` returns normally — the map node
finishes with `node.finish{status:success}`. -/
theorem map_collect_errors (items : List Value) (result_key : String)
    (comp : Nat → Value → Except String Dict) :
    execute_map true (Value.vlst items) "collect_errors" true result_key comp =
      Except.ok
        (aset "errors" (errors_value (map_errors_spec comp items))
          (aset result_key
            (Value.vlst (((map_survivors_spec comp items).map Prod.snd).map Value.vobj))
            []),
         (map_survivors_spec comp items).map Prod.snd)
    ∧ (∀ (spec : RNodeSpec) (cOE tok : Bool) (states : List (String × Dict))
          (outs : Dict),
        (run_node spec (CompOutcome.ok outs) cOE tok states).events =
          [Event.node_start spec.id, Event.node_finish spec.id "success" outs]) := by
  constructor
  · simp only [execute_map]
    rw [if_neg (by decide)]
    rw [map_loop_collect comp items.enum [] []]
    simp only [List.nil_append]
    rw [if_pos trivial]
    rw [show items.enum.filterMap (fun p =>
          match comp p.1 p.2 with
          | Except.ok outs => some (p.1, outs)
          | Except.error _ => none) = map_survivors_spec comp items from rfl]
    rw [show items.enum.filterMap (fun p =>
          match comp p.1 p.2 with
          | Except.ok _ => none
          | Except.error e => some (p.1, e)) = map_errors_spec comp items from rfl]
    rw [sort_by_fst_eq_self _ (map_survivors_sorted comp items)]
  · intro spec cOE tok states outs
    cases hs : select_next spec (aget spec.id (aset spec.id outs states)) with
    | ok targets => simp [run_node, hs]
    | error code => simp [run_node, hs]

/-- Witness for C8 on the specification example: collection
`[1, 2, "boom", 3]` with a component failing on the string item yields
three results in index order and one error entry for index 2, and the node
events end in a success finish. -/
theorem map_collect_errors_witness :
    execute_map true
        (Value.vlst [Value.vint 1, Value.vint 2, Value.vstr "boom", Value.vint 3])
        "collect_errors" true "results"
        (fun _ item =>
          match item with
          | Value.vstr _ => Except.error "boom"
          | other => Except.ok [("v", other)]) =
      Except.ok
        ([("results", Value.vlst [Value.vobj [("v", Value.vint 1)],
            Value.vobj [("v", Value.vint 2)], Value.vobj [("v", Value.vint 3)]]),
          ("errors", Value.vlst [Value.vobj [("index", Value.vint 2),
            ("error", Value.vstr "boom")]])],
         [[("v", Value.vint 1)], [("v", Value.vint 2)], [("v", Value.vint 3)]])
    ∧ (run_node ⟨"m", "map", [], []⟩ (CompOutcome.ok []) true false []).events =
        [Event.node_start "m", Event.node_finish "m" "success" []] := by
  constructor
  · exact (map_collect_errors
      [Value.vint 1, Value.vint 2, Value.vstr "boom", Value.vint 3] "results"
      (fun _ item =>
        match item with
        | Value.vstr _ => Except.error "boom"
        | other => Except.ok [("v", other)])).1.trans rfl
  · exact (map_collect_errors [] "results" (fun _ _ => Except.ok [])).2
      ⟨"m", "map", [], []⟩ true false [] []

/-! ## C9 — masking idempotence: groundwork -/

theorem aset_aset {α : Type} (k : String) (v1 v2 : α) (d : List (String × α)) :
    aset k v1 (aset k v2 d) = aset k v1 d := by
  induction d with
  | nil => simp [aset]
  | cons p rest ih =>
      obtain ⟨k0, v0⟩ := p
      by_cases h : k0 = k
      · simp [aset, h]
      · simp [aset, h, ih]

theorem aget_isSome_iff_mem {α : Type} (k : String) (d : List (String × α)) :
    (aget k d).isSome = true ↔ k ∈ akeys d := by
  induction d with
  | nil => simp [aget, akeys]
  | cons p rest ih =>
      obtain ⟨k0, v0⟩ := p
      by_cases h : k0 = k
      · subst h
        simp [aget, akeys]
      · simp only [aget, if_neg h, akeys, List.map_cons, List.mem_cons]
        rw [ih]
        constructor
        · intro hm; exact Or.inr hm
        · intro hm
          rcases hm with hm | hm
          · exact absurd hm.symm h
          · exact hm

theorem mem_of_aget {α : Type} {k : String} {d : List (String × α)} {u : α}
    (h : aget k d = some u) : (k, u) ∈ d := by
  induction d with
  | nil => cases h
  | cons p rest ih =>
      obtain ⟨k0, v0⟩ := p
      by_cases hk : k0 = k
      · subst hk
        simp only [aget, if_pos rfl] at h
        cases h
        exact List.mem_cons_self _ _
      · simp only [aget, if_neg hk] at h
        exact List.mem_cons_of_mem _ (ih h)

theorem aget_of_mem_nodup {α : Type} :
    ∀ {d : List (String × α)} {k : String} {u : α},
      nodup_keys (akeys d) = true → (k, u) ∈ d → aget k d = some u := by
  intro d
  induction d with
  | nil => intro k u _ hm; cases hm
  | cons p rest ih =>
      intro k u hnd hm
      obtain ⟨k0, v0⟩ := p
      simp only [akeys_cons, nodup_keys, Bool.and_eq_true,
        Bool.not_eq_true'] at hnd
      obtain ⟨hk0, hndrest⟩ := hnd
      rcases List.mem_cons.mp hm with h1 | h2
      · have hk : k = k0 := congrArg Prod.fst h1
        have hv : u = v0 := congrArg Prod.snd h1
        subst hk
        subst hv
        simp [aget]
      · have hkmem : k ∈ akeys rest := List.mem_map_of_mem Prod.fst h2
        have hne : k0 ≠ k := by
          intro he
          subst he
          have hc : (List.map Prod.fst rest).contains k0 = true :=
            contains_of_mem hkmem
          rw [hk0] at hc
          cases hc
        simp only [aget, if_neg hne]
        exact ih hndrest h2

theorem vsize_pos : ∀ v : Value, 0 < vsize v := by
  intro v
  cases v <;> simp only [vsize] <;> omega

theorem vsize_of_mem_dict :
    ∀ {m : List (String × Value)} {k : String} {u : Value},
      (k, u) ∈ m → vsize u < vsize (Value.vobj m) := by
  intro m
  induction m with
  | nil => intro k u hm; cases hm
  | cons p rest ih =>
      intro k u hm
      obtain ⟨k0, v0⟩ := p
      rcases List.mem_cons.mp hm with h1 | h2
      · have hv : u = v0 := congrArg Prod.snd h1
        subst hv
        simp only [vsize, dsize]
        omega
      · have := ih h2
        simp only [vsize, dsize] at this ⊢
        omega

theorem vsize_of_mem_list :
    ∀ {xs : List Value} {x : Value}, x ∈ xs → vsize x < vsize (Value.vlst xs) := by
  intro xs
  induction xs with
  | nil => intro x hm; cases hm
  | cons y rest ih =>
      intro x hm
      rcases List.mem_cons.mp hm with h1 | h2
      · subst h1
        simp only [vsize, lsize]
        omega
      · have := ih h2
        simp only [vsize, lsize] at this ⊢
        omega

theorem WFdict_parts {d : Dict} (h : WFdict d = true) :
    nodup_keys (akeys d) = true ∧ WFd d = true := by
  simpa [WFdict, Bool.and_eq_true] using h

theorem WFv_vobj {m : List (String × Value)} :
    WFv (Value.vobj m) = WFdict m := rfl

theorem WFd_mem :
    ∀ {d : List (String × Value)} {k : String} {u : Value},
      WFd d = true → (k, u) ∈ d → WFv u = true := by
  intro d
  induction d with
  | nil => intro k u _ hm; cases hm
  | cons p rest ih =>
      intro k u hw hm
      obtain ⟨k0, v0⟩ := p
      simp only [WFd, Bool.and_eq_true] at hw
      rcases List.mem_cons.mp hm with h1 | h2
      · have hv : u = v0 := congrArg Prod.snd h1
        subst hv
        exact hw.1
      · exact ih hw.2 h2

theorem WFd_get {d : Dict} {k : String} {u : Value}
    (hw : WFd d = true) (hg : aget k d = some u) : WFv u = true :=
  WFd_mem hw (mem_of_aget hg)

/-! ## C9 — properties of Python equality -/

theorem nodup_keys_iff : ∀ l : List String, nodup_keys l = true ↔ l.Nodup := by
  intro l
  induction l with
  | nil => simp [nodup_keys]
  | cons k ks ih =>
      simp only [nodup_keys, Bool.and_eq_true, Bool.not_eq_true', List.nodup_cons]
      constructor
      · intro ⟨h1, h2⟩
        refine ⟨?_, ih.mp h2⟩
        intro hm
        rw [contains_of_mem hm] at h1
        cases h1
      · intro ⟨h1, h2⟩
        exact ⟨contains_false_of_not_mem h1, ih.mpr h2⟩

theorem dsub_iff_forall :
    ∀ e e' : List (String × Value), dsub e e' = true ↔
      ∀ p ∈ e, ∃ u', aget p.1 e' = some u' ∧ veq p.2 u' = true := by
  intro e e'
  induction e with
  | nil => simp [dsub]
  | cons p rest ih =>
      obtain ⟨k, v⟩ := p
      simp only [dsub, Bool.and_eq_true]
      constructor
      · intro ⟨h1, h2⟩ q hq
        rcases List.mem_cons.mp hq with hq1 | hq2
        · subst hq1
          cases hg : aget k e' with
          | none => rw [hg] at h1; cases h1
          | some u' =>
              rw [hg] at h1
              exact ⟨u', rfl, h1⟩
        · exact ih.mp h2 q hq2
      · intro hall
        obtain ⟨u', hg, hv⟩ := hall (k, v) (List.mem_cons_self _ _)
        constructor
        · rw [hg]
          exact hv
        · exact ih.mpr (fun q hq => hall q (List.mem_cons_of_mem _ hq))

theorem veq_vobj_iff {m m' : List (String × Value)} :
    veq (Value.vobj m) (Value.vobj m') = true ↔
      m.length = m'.length ∧ dsub m m' = true := by
  simp [veq, Bool.and_eq_true]

theorem WFl_mem :
    ∀ {xs : List Value} {x : Value}, WFl xs = true → x ∈ xs → WFv x = true := by
  intro xs
  induction xs with
  | nil => intro x _ hm; cases hm
  | cons y rest ih =>
      intro x hw hm
      simp only [WFl, Bool.and_eq_true] at hw
      rcases List.mem_cons.mp hm with h1 | h2
      · subst h1; exact hw.1
      · exact ih hw.2 h2

theorem vleq_self :
    ∀ xs : List Value, (∀ x ∈ xs, veq x x = true) → vleq xs xs = true := by
  intro xs
  induction xs with
  | nil => intro _; rfl
  | cons x rest ih =>
      intro h
      simp only [vleq, Bool.and_eq_true]
      exact ⟨h x (List.mem_cons_self _ _),
        ih (fun y hy => h y (List.mem_cons_of_mem _ hy))⟩

theorem veq_refl_n :
    ∀ n, ∀ v : Value, vsize v ≤ n → WFv v = true → veq v v = true := by
  intro n
  induction n with
  | zero =>
      intro v hs _
      have := vsize_pos v
      omega
  | succ n ih =>
      intro v hs hw
      cases v with
      | vnull => rfl
      | vbool b => simp [veq]
      | vint i => simp [veq]
      | vstr s => simp [veq]
      | vlst xs =>
          show vleq xs xs = true
          refine vleq_self xs (fun x hx => ?_)
          have hsx := vsize_of_mem_list hx
          have hx' : vsize x ≤ n := by
            simp only [vsize] at hsx hs
            omega
          exact ih x hx' (WFl_mem hw hx)
      | vobj m =>
          rw [veq_vobj_iff]
          refine ⟨rfl, ?_⟩
          rw [dsub_iff_forall]
          intro p hp
          obtain ⟨hnd, hwd⟩ := WFdict_parts hw
          obtain ⟨k, u⟩ := p
          refine ⟨u, aget_of_mem_nodup hnd hp, ?_⟩
          have hsu := vsize_of_mem_dict hp
          have hu' : vsize u ≤ n := by
            simp only [vsize] at hsu hs
            omega
          exact ih u hu' (WFd_mem hwd hp)

theorem veq_refl {v : Value} (h : WFv v = true) : veq v v = true :=
  veq_refl_n (vsize v) v le_rfl h

theorem optveq_self {d : Dict} (h : WFdict d = true) (k : String) :
    optveq (aget k d) (aget k d) = true := by
  cases hg : aget k d with
  | none => rfl
  | some u => exact veq_refl (WFd_get (WFdict_parts h).2 hg)

theorem veq_trans_n :
    ∀ n, ∀ u v w : Value, vsize u ≤ n →
      WFv u = true → WFv v = true → WFv w = true →
      veq u v = true → veq v w = true → veq u w = true := by
  intro n
  induction n with
  | zero =>
      intro u v w hs _ _ _ _ _
      have := vsize_pos u
      omega
  | succ n ih =>
      intro u v w hs hwu hwv hww huv hvw
      cases u with
      | vnull =>
          cases v <;> simp [veq] at huv
          cases w <;> simp [veq] at hvw
          rfl
      | vbool a =>
          cases v with
          | vbool b =>
              cases w with
              | vbool c =>
                  have h1 : a = b := eq_of_beq huv
                  have h2 : b = c := eq_of_beq hvw
                  subst h1; subst h2
                  simp [veq]
              | vnull | vint _ | vstr _ | vlst _ | vobj _ => simp [veq] at hvw
          | vnull | vint _ | vstr _ | vlst _ | vobj _ => simp [veq] at huv
      | vint a =>
          cases v with
          | vint b =>
              cases w with
              | vint c =>
                  have h1 : a = b := eq_of_beq huv
                  have h2 : b = c := eq_of_beq hvw
                  subst h1; subst h2
                  simp [veq]
              | vnull | vbool _ | vstr _ | vlst _ | vobj _ => simp [veq] at hvw
          | vnull | vbool _ | vstr _ | vlst _ | vobj _ => simp [veq] at huv
      | vstr a =>
          cases v with
          | vstr b =>
              cases w with
              | vstr c =>
                  have h1 : a = b := eq_of_beq huv
                  have h2 : b = c := eq_of_beq hvw
                  subst h1; subst h2
                  simp [veq]
              | vnull | vbool _ | vint _ | vlst _ | vobj _ => simp [veq] at hvw
          | vnull | vbool _ | vint _ | vlst _ | vobj _ => simp [veq] at huv
      | vlst xs =>
          cases v with
          | vlst ys =>
              cases w with
              | vlst zs =>
                  show vleq xs zs = true
                  have huv' : vleq xs ys = true := huv
                  have hvw' : vleq ys zs = true := hvw
                  clear huv hvw
                  induction xs generalizing ys zs with
                  | nil =>
                      cases ys with
                      | nil =>
                          cases zs with
                          | nil => rfl
                          | cons z zs' => simp [vleq] at hvw'
                      | cons y ys' => simp [vleq] at huv'
                  | cons x xs' ihx =>
                      cases ys with
                      | nil => simp [vleq] at huv'
                      | cons y ys' =>
                          cases zs with
                          | nil => simp [vleq] at hvw'
                          | cons z zs' =>
                              simp only [vleq, Bool.and_eq_true] at huv' hvw' ⊢
                              simp only [WFv, WFl, Bool.and_eq_true] at hwu hwv hww
                              refine ⟨?_, ?_⟩
                              · have hx : vsize x ≤ n := by
                                  have hmem := vsize_of_mem_list
                                    (List.mem_cons_self x xs')
                                  simp only [vsize] at hmem hs
                                  omega
                                exact ih x y z hx hwu.1 hwv.1 hww.1 huv'.1 hvw'.1
                              · have hxs : vsize (Value.vlst xs') ≤ n := by
                                  simp only [vsize, lsize] at hs ⊢
                                  have := vsize_pos x
                                  omega
                                have := ih (Value.vlst xs') (Value.vlst ys')
                                  (Value.vlst zs') hxs
                                  (by simp [WFv, hwu.2]) (by simp [WFv, hwv.2])
                                  (by simp [WFv, hww.2]) huv'.2 hvw'.2
                                exact this
              | vnull | vbool _ | vint _ | vstr _ | vobj _ => simp [veq] at hvw
          | vnull | vbool _ | vint _ | vstr _ | vobj _ => simp [veq] at huv
      | vobj m1 =>
          cases v with
          | vobj m2 =>
              cases w with
              | vobj m3 =>
                  rw [veq_vobj_iff] at huv hvw ⊢
                  obtain ⟨hlen12, hsub12⟩ := huv
                  obtain ⟨hlen23, hsub23⟩ := hvw
                  refine ⟨hlen12.trans hlen23, ?_⟩
                  rw [dsub_iff_forall] at hsub12 hsub23 ⊢
                  intro p hp
                  obtain ⟨k, a⟩ := p
                  obtain ⟨b, hgb, hab⟩ := hsub12 (k, a) hp
                  obtain ⟨c, hgc, hbc⟩ := hsub23 (k, b) (mem_of_aget hgb)
                  refine ⟨c, hgc, ?_⟩
                  have hsa := vsize_of_mem_dict hp
                  have ha' : vsize a ≤ n := by
                    simp only [vsize] at hsa hs
                    omega
                  exact ih a b c ha'
                    (WFd_mem (WFdict_parts hwu).2 hp)
                    (WFd_mem (WFdict_parts hwv).2 (mem_of_aget hgb))
                    (WFd_mem (WFdict_parts hww).2 (mem_of_aget hgc))
                    hab hbc
              | vnull | vbool _ | vint _ | vstr _ | vlst _ => simp [veq] at hvw
          | vnull | vbool _ | vint _ | vstr _ | vlst _ => simp [veq] at huv

theorem veq_trans {u v w : Value} (hwu : WFv u = true) (hwv : WFv v = true)
    (hww : WFv w = true) (h1 : veq u v = true) (h2 : veq v w = true) :
    veq u w = true :=
  veq_trans_n (vsize u) u v w le_rfl hwu hwv hww h1 h2

/-! ## C9 — get-level characterization of dictionary equality -/

theorem mem_akeys_iff {α : Type} {k : String} {d : List (String × α)} :
    k ∈ akeys d ↔ ∃ v, (k, v) ∈ d := by
  unfold akeys
  rw [List.mem_map]
  constructor
  · intro ⟨p, hp, hk⟩
    exact ⟨p.2, by rw [← hk]; exact hp⟩
  · intro ⟨v, hv⟩
    exact ⟨(k, v), hv, rfl⟩

theorem aget_none_iff_not_mem {α : Type} {k : String} {d : List (String × α)} :
    aget k d = none ↔ k ∉ akeys d := by
  rw [← aget_isSome_iff_mem]
  cases aget k d <;> simp

theorem dveq_iff_get {d d' : Dict} (hd : WFdict d = true) (hd' : WFdict d' = true) :
    (veq (Value.vobj d) (Value.vobj d') = true ↔
      ∀ k, optveq (aget k d) (aget k d') = true) := by
  obtain ⟨hnd, hwd⟩ := WFdict_parts hd
  obtain ⟨hnd', hwd'⟩ := WFdict_parts hd'
  rw [veq_vobj_iff]
  constructor
  · intro ⟨hlen, hsub⟩ k
    rw [dsub_iff_forall] at hsub
    cases hg : aget k d with
    | some u =>
        obtain ⟨u', hg', hv⟩ := hsub (k, u) (mem_of_aget hg)
        rw [hg']
        exact hv
    | none =>
        have hkeys : akeys d ⊆ akeys d' := by
          intro k0 hk0
          obtain ⟨v0, hv0⟩ := mem_akeys_iff.mp hk0
          obtain ⟨u', hg', _⟩ := hsub (k0, v0) hv0
          rw [← aget_isSome_iff_mem, hg']
          rfl
        have hperm : (akeys d).Perm (akeys d') := by
          refine (List.subperm_of_subset ((nodup_keys_iff _).mp hnd)
            hkeys).perm_of_length_le ?_
          unfold akeys
          rw [List.length_map, List.length_map]
          omega
        have hk : k ∉ akeys d := aget_none_iff_not_mem.mp hg
        have hk' : k ∉ akeys d' := fun hmem => hk (hperm.mem_iff.mpr hmem)
        rw [aget_none_iff_not_mem.mpr hk']
        rfl
  · intro hall
    have hmemiff : ∀ k, k ∈ akeys d ↔ k ∈ akeys d' := by
      intro k
      have h := hall k
      cases hg : aget k d with
      | none =>
          rw [hg] at h
          cases hg' : aget k d' with
          | none =>
              constructor
              · intro hm
                rw [← aget_isSome_iff_mem, hg] at hm
                cases hm
              · intro hm
                rw [← aget_isSome_iff_mem, hg'] at hm
                cases hm
          | some u' => rw [hg'] at h; cases h
      | some u =>
          rw [hg] at h
          cases hg' : aget k d' with
          | none => rw [hg'] at h; cases h
          | some u' =>
              constructor
              · intro _
                rw [← aget_isSome_iff_mem, hg']
                rfl
              · intro _
                rw [← aget_isSome_iff_mem, hg]
                rfl
    have hperm : (akeys d).Perm (akeys d') :=
      (List.perm_ext_iff_of_nodup ((nodup_keys_iff _).mp hnd)
        ((nodup_keys_iff _).mp hnd')).mpr hmemiff
    constructor
    · have hlen := hperm.length_eq
      unfold akeys at hlen
      rwa [List.length_map, List.length_map] at hlen
    · rw [dsub_iff_forall]
      intro p hp
      obtain ⟨k, u⟩ := p
      have hg : aget k d = some u := aget_of_mem_nodup hnd hp
      have h := hall k
      rw [hg] at h
      cases hg' : aget k d' with
      | none => rw [hg'] at h; cases h
      | some u' =>
          rw [hg'] at h
          exact ⟨u', rfl, h⟩

/-! ## C9 — set_path structure lemmas -/

theorem mem_akeys_aset {α : Type} {k' k : String} (h : k' ≠ k) (v : α)
    (d : List (String × α)) : k' ∈ akeys (aset k v d) ↔ k' ∈ akeys d := by
  rw [← aget_isSome_iff_mem, ← aget_isSome_iff_mem, aget_aset_ne h]

theorem nodup_keys_aset {α : Type} (k : String) (v : α) :
    ∀ d : List (String × α), nodup_keys (akeys d) = true →
      nodup_keys (akeys (aset k v d)) = true := by
  intro d
  induction d with
  | nil => intro _; simp [aset, akeys, nodup_keys, List.contains]
  | cons p rest ih =>
      intro hnd
      obtain ⟨k0, v0⟩ := p
      simp only [akeys_cons, nodup_keys, Bool.and_eq_true,
        Bool.not_eq_true'] at hnd
      obtain ⟨hk0, hndrest⟩ := hnd
      by_cases hk : k0 = k
      · subst hk
        simp only [aset, if_pos rfl, akeys_cons, nodup_keys,
          Bool.and_eq_true, Bool.not_eq_true']
        exact ⟨hk0, hndrest⟩
      · simp only [aset, if_neg hk, akeys_cons, nodup_keys,
          Bool.and_eq_true, Bool.not_eq_true']
        refine ⟨?_, ih hndrest⟩
        refine contains_false_of_not_mem ?_
        intro hmem
        have hmem2 : k0 ∈ akeys rest := (mem_akeys_aset hk v rest).mp hmem
        have hc : (List.map Prod.fst rest).contains k0 = true :=
          contains_of_mem hmem2
        rw [hk0] at hc
        cases hc

theorem WFd_aset {v : Value} (hv : WFv v = true) (k : String) :
    ∀ d : Dict, WFd d = true → WFd (aset k v d) = true := by
  intro d
  induction d with
  | nil => intro _; simp [aset, WFd, hv]
  | cons p rest ih =>
      intro hw
      obtain ⟨k0, v0⟩ := p
      simp only [WFd, Bool.and_eq_true] at hw
      by_cases hk : k0 = k
      · simp only [aset, if_pos hk, WFd, Bool.and_eq_true]
        exact ⟨hv, hw.2⟩
      · simp only [aset, if_neg hk, WFd, Bool.and_eq_true]
        exact ⟨hw.1, ih hw.2⟩

theorem WFdict_aset {v : Value} {d : Dict} (hv : WFv v = true)
    (hd : WFdict d = true) (k : String) : WFdict (aset k v d) = true := by
  obtain ⟨hnd, hwd⟩ := WFdict_parts hd
  simp only [WFdict, Bool.and_eq_true]
  exact ⟨nodup_keys_aset k v d hnd, WFd_aset hv k d hwd⟩

theorem WFdict_empty : WFdict [] = true := rfl

theorem WFdict_asDict_of_get {d : Dict} (k : String) (hw : WFd d = true) :
    WFdict (asDict (aget k d)) = true := by
  cases hg : aget k d with
  | none => exact WFdict_empty
  | some u =>
      have hu : WFv u = true := WFd_get hw hg
      cases u with
      | vobj m => exact hu
      | vnull | vbool _ | vint _ | vstr _ | vlst _ => exact WFdict_empty

theorem WFdict_go {v : Value} (hv : WFv v = true) :
    ∀ (ps : List String) (d : Dict), WFdict d = true →
      WFdict (set_path_go v ps d) = true := by
  intro ps
  induction ps with
  | nil => intro d hd; exact hd
  | cons k rest ih =>
      intro d hd
      cases rest with
      | nil => exact WFdict_aset hv hd k
      | cons r rs =>
          show WFdict (aset k (Value.vobj
            (set_path_go v (r :: rs) (asDict (aget k d)))) d) = true
          refine WFdict_aset ?_ hd k
          show WFdict (set_path_go v (r :: rs) (asDict (aget k d))) = true
          exact ih (asDict (aget k d)) (WFdict_asDict_of_get k (WFdict_parts hd).2)

theorem get_go_ne {k0 k : String} (h : k0 ≠ k) (v : Value) (ps : List String)
    (d : Dict) : aget k0 (set_path_go v (k :: ps) d) = aget k0 d := by
  cases ps with
  | nil => exact aget_aset_ne h v d
  | cons r rs => exact aget_aset_ne h _ d

theorem get_go_nil (k : String) (v : Value) (d : Dict) :
    aget k (set_path_go v [k] d) = some v :=
  aget_aset_same k v d

theorem get_go_cons (k : String) (v : Value) {ps : List String} (hps : ps ≠ [])
    (d : Dict) :
    aget k (set_path_go v (k :: ps) d) =
      some (Value.vobj (set_path_go v ps (asDict (aget k d)))) := by
  cases ps with
  | nil => exact absurd rfl hps
  | cons r rs => exact aget_aset_same k _ d

theorem set_path_go_idem (v : Value) :
    ∀ (ps : List String) (d : Dict),
      set_path_go v ps (set_path_go v ps d) = set_path_go v ps d := by
  intro ps
  induction ps with
  | nil => intro d; rfl
  | cons k rest ih =>
      intro d
      cases rest with
      | nil => exact aset_aset k v v d
      | cons r rs =>
          show aset k (Value.vobj (set_path_go v (r :: rs)
              (asDict (aget k (set_path_go v (k :: r :: rs) d)))))
              (set_path_go v (k :: r :: rs) d) =
            set_path_go v (k :: r :: rs) d
          rw [get_go_cons k v (by simp) d]
          show aset k (Value.vobj (set_path_go v (r :: rs)
              (set_path_go v (r :: rs) (asDict (aget k d)))))
              (set_path_go v (k :: r :: rs) d) =
            set_path_go v (k :: r :: rs) d
          rw [ih (asDict (aget k d))]
          show aset k (Value.vobj (set_path_go v (r :: rs) (asDict (aget k d))))
              (aset k (Value.vobj (set_path_go v (r :: rs) (asDict (aget k d)))) d) =
            aset k (Value.vobj (set_path_go v (r :: rs) (asDict (aget k d)))) d
          rw [aset_aset]

/-! ## C9 — congruence of set_path under Python equality -/

theorem WFdict_asDict_some {w : Value} (hw : WFv w = true) :
    WFdict (asDict (some w)) = true := by
  cases w with
  | vobj m => exact hw
  | vnull | vbool _ | vint _ | vstr _ | vlst _ => exact WFdict_empty

theorem asDict_pointwise {o o' : Option Value}
    (hwo : ∀ u, o = some u → WFv u = true)
    (hwo' : ∀ u, o' = some u → WFv u = true)
    (h : optveq o o' = true) :
    ∀ k1, optveq (aget k1 (asDict o)) (aget k1 (asDict o')) = true := by
  intro k1
  cases o with
  | none =>
      cases o' with
      | none => rfl
      | some u' => cases h
  | some u =>
      cases o' with
      | none => cases h
      | some u' =>
          have hu := hwo u rfl
          have hu' := hwo' u' rfl
          have hv : veq u u' = true := h
          cases u with
          | vobj m =>
              cases u' with
              | vobj m' =>
                  show optveq (aget k1 m) (aget k1 m') = true
                  exact (dveq_iff_get hu hu').mp hv k1
              | vnull | vbool _ | vint _ | vstr _ | vlst _ => simp [veq] at hv
          | vnull =>
              cases u' with
              | vnull => rfl
              | vbool _ | vint _ | vstr _ | vlst _ | vobj _ => simp [veq] at hv
          | vbool b =>
              cases u' with
              | vbool _ => rfl
              | vnull | vint _ | vstr _ | vlst _ | vobj _ => simp [veq] at hv
          | vint i =>
              cases u' with
              | vint _ => rfl
              | vnull | vbool _ | vstr _ | vlst _ | vobj _ => simp [veq] at hv
          | vstr t =>
              cases u' with
              | vstr _ => rfl
              | vnull | vbool _ | vint _ | vlst _ | vobj _ => simp [veq] at hv
          | vlst xs =>
              cases u' with
              | vlst _ => rfl
              | vnull | vbool _ | vint _ | vstr _ | vobj _ => simp [veq] at hv

theorem go_congr {v : Value} (hv : WFv v = true) (hvr : veq v v = true) :
    ∀ (ps : List String) (d d' : Dict), WFdict d = true → WFdict d' = true →
      (∀ k, optveq (aget k d) (aget k d') = true) →
      ∀ k, optveq (aget k (set_path_go v ps d))
        (aget k (set_path_go v ps d')) = true := by
  intro ps
  induction ps with
  | nil => intro d d' _ _ h k; exact h k
  | cons k rest ih =>
      intro d d' hd hd' h k0
      by_cases hk0 : k0 = k
      · subst hk0
        cases rest with
        | nil =>
            rw [get_go_nil, get_go_nil]
            exact hvr
        | cons r rs =>
            rw [get_go_cons k0 v (by simp) d, get_go_cons k0 v (by simp) d']
            show veq
              (Value.vobj (set_path_go v (r :: rs) (asDict (aget k0 d))))
              (Value.vobj (set_path_go v (r :: rs) (asDict (aget k0 d')))) = true
            have hwsub : WFdict (asDict (aget k0 d)) = true :=
              WFdict_asDict_of_get k0 (WFdict_parts hd).2
            have hwsub' : WFdict (asDict (aget k0 d')) = true :=
              WFdict_asDict_of_get k0 (WFdict_parts hd').2
            refine (dveq_iff_get
              (WFdict_go hv (r :: rs) _ hwsub)
              (WFdict_go hv (r :: rs) _ hwsub')).mpr ?_
            refine ih (asDict (aget k0 d)) (asDict (aget k0 d')) hwsub hwsub' ?_
            exact asDict_pointwise
              (fun u hu => WFd_get (WFdict_parts hd).2 hu)
              (fun u hu => WFd_get (WFdict_parts hd').2 hu)
              (h k0)
      · rw [get_go_ne hk0, get_go_ne hk0]
        exact h k0

/-! ## C9 — a later set_path preserves agreement-after-masking -/

theorem go_preserve {v w : Value}
    (hv : WFv v = true) (hvr : veq v v = true)
    (hw : WFv w = true) (hwr : veq w w = true) :
    ∀ (ps gps : List String) (d d' : Dict),
      WFdict d = true → WFdict d' = true →
      (∀ k, optveq (aget k (set_path_go v ps d))
        (aget k (set_path_go v ps d')) = true) →
      ∀ k, optveq (aget k (set_path_go v ps (set_path_go w gps d)))
        (aget k (set_path_go v ps (set_path_go w gps d'))) = true := by
  intro ps
  induction ps with
  | nil =>
      intro gps d d' hd hd' h k
      exact go_congr hw hwr gps d d' hd hd' h k
  | cons k ps' ih =>
      intro gps d d' hd hd' h k0
      cases gps with
      | nil => exact h k0
      | cons k' gps' =>
          by_cases hk0k : k0 = k
          · subst hk0k
            cases ps' with
            | nil =>
                rw [get_go_nil, get_go_nil]
                exact hvr
            | cons r rs =>
                rw [get_go_cons k0 v (by simp) (set_path_go w (k' :: gps') d),
                  get_go_cons k0 v (by simp) (set_path_go w (k' :: gps') d')]
                by_cases hkk' : k0 = k'
                · subst hkk'
                  cases gps' with
                  | nil =>
                      rw [get_go_nil, get_go_nil]
                      show veq
                        (Value.vobj (set_path_go v (r :: rs) (asDict (some w))))
                        (Value.vobj (set_path_go v (r :: rs) (asDict (some w)))) = true
                      exact veq_refl
                        (WFdict_go hv (r :: rs) _ (WFdict_asDict_some hw))
                  | cons g gs =>
                      rw [get_go_cons k0 w (by simp) d, get_go_cons k0 w (by simp) d']
                      show veq
                        (Value.vobj (set_path_go v (r :: rs) (set_path_go w (g :: gs)
                          (asDict (aget k0 d)))))
                        (Value.vobj (set_path_go v (r :: rs) (set_path_go w (g :: gs)
                          (asDict (aget k0 d'))))) = true
                      have hsub : WFdict (asDict (aget k0 d)) = true :=
                        WFdict_asDict_of_get k0 (WFdict_parts hd).2
                      have hsub' : WFdict (asDict (aget k0 d')) = true :=
                        WFdict_asDict_of_get k0 (WFdict_parts hd').2
                      refine (dveq_iff_get
                        (WFdict_go hv (r :: rs) _ (WFdict_go hw (g :: gs) _ hsub))
                        (WFdict_go hv (r :: rs) _
                          (WFdict_go hw (g :: gs) _ hsub'))).mpr ?_
                      refine ih (g :: gs) (asDict (aget k0 d)) (asDict (aget k0 d'))
                        hsub hsub' ?_
                      have hk := h k0
                      rw [get_go_cons k0 v (by simp) d,
                        get_go_cons k0 v (by simp) d'] at hk
                      exact (dveq_iff_get
                        (WFdict_go hv (r :: rs) _ hsub)
                        (WFdict_go hv (r :: rs) _ hsub')).mp hk
                · rw [get_go_ne hkk' w gps' d, get_go_ne hkk' w gps' d']
                  have hk := h k0
                  rw [get_go_cons k0 v (by simp) d,
                    get_go_cons k0 v (by simp) d'] at hk
                  exact hk
          · rw [get_go_ne hk0k v ps' (set_path_go w (k' :: gps') d),
              get_go_ne hk0k v ps' (set_path_go w (k' :: gps') d')]
            have hk := h k0
            rw [get_go_ne hk0k v ps' d, get_go_ne hk0k v ps' d'] at hk
            by_cases hk0k' : k0 = k'
            · subst hk0k'
              cases gps' with
              | nil =>
                  rw [get_go_nil, get_go_nil]
                  exact hwr
              | cons g gs =>
                  rw [get_go_cons k0 w (by simp) d, get_go_cons k0 w (by simp) d']
                  show veq
                    (Value.vobj (set_path_go w (g :: gs) (asDict (aget k0 d))))
                    (Value.vobj (set_path_go w (g :: gs) (asDict (aget k0 d')))) = true
                  have hsub : WFdict (asDict (aget k0 d)) = true :=
                    WFdict_asDict_of_get k0 (WFdict_parts hd).2
                  have hsub' : WFdict (asDict (aget k0 d')) = true :=
                    WFdict_asDict_of_get k0 (WFdict_parts hd').2
                  refine (dveq_iff_get
                    (WFdict_go hw (g :: gs) _ hsub)
                    (WFdict_go hw (g :: gs) _ hsub')).mpr ?_
                  refine go_congr hw hwr (g :: gs) _ _ hsub hsub' ?_
                  exact asDict_pointwise
                    (fun u hu => WFd_get (WFdict_parts hd).2 hu)
                    (fun u hu => WFd_get (WFdict_parts hd').2 hu)
                    hk
            · rw [get_go_ne hk0k' w gps' d, get_go_ne hk0k' w gps' d']
              exact hk

/-! ## C9 — idempotence of fixed-field masking -/

theorem set_path_eq (d : Dict) (f : String) (v : Value) :
    set_path d f v = set_path_go v (split_path f) d := rfl

theorem apply_fields_nil (mv : String) (d : Dict) : apply_fields mv [] d = d := rfl

theorem apply_fields_cons (mv : String) (f : String) (fs : List String) (d : Dict) :
    apply_fields mv (f :: fs) d =
      apply_fields mv fs (set_path d f (Value.vstr mv)) := rfl

theorem apply_fields_append_singleton (mv : String) (fs : List String) (f : String)
    (d : Dict) :
    apply_fields mv (fs ++ [f]) d =
      set_path (apply_fields mv fs d) f (Value.vstr mv) := by
  unfold apply_fields
  rw [List.foldl_append]
  rfl

theorem WFv_vstr (mv : String) : WFv (Value.vstr mv) = true := rfl

theorem veq_vstr_self (mv : String) : veq (Value.vstr mv) (Value.vstr mv) = true := by
  simp [veq]

theorem WFdict_apply_fields (mv : String) :
    ∀ (fs : List String) (d : Dict), WFdict d = true →
      WFdict (apply_fields mv fs d) = true := by
  intro fs
  induction fs with
  | nil => intro d hd; exact hd
  | cons f fs' ih =>
      intro d hd
      rw [apply_fields_cons]
      refine ih _ ?_
      rw [set_path_eq]
      exact WFdict_go (WFv_vstr mv) _ d hd

theorem apply_fields_preserve (mv : String) :
    ∀ (fs ps : List String) (d d' : Dict),
      WFdict d = true → WFdict d' = true →
      (∀ k, optveq (aget k (set_path_go (Value.vstr mv) ps d))
        (aget k (set_path_go (Value.vstr mv) ps d')) = true) →
      ∀ k, optveq
        (aget k (set_path_go (Value.vstr mv) ps (apply_fields mv fs d)))
        (aget k (set_path_go (Value.vstr mv) ps (apply_fields mv fs d'))) = true := by
  intro fs
  induction fs with
  | nil => intro ps d d' _ _ h k; exact h k
  | cons f fs' ih =>
      intro ps d d' hd hd' h k
      rw [apply_fields_cons, apply_fields_cons, set_path_eq, set_path_eq]
      refine ih ps (set_path_go (Value.vstr mv) (split_path f) d)
        (set_path_go (Value.vstr mv) (split_path f) d')
        (WFdict_go (WFv_vstr mv) _ d hd)
        (WFdict_go (WFv_vstr mv) _ d' hd') ?_ k
      exact go_preserve (WFv_vstr mv) (veq_vstr_self mv)
        (WFv_vstr mv) (veq_vstr_self mv) ps (split_path f) d d' hd hd' h

theorem pointwise_trans {e1 e2 e3 : Dict} (h1 : WFdict e1 = true)
    (h2 : WFdict e2 = true) (h3 : WFdict e3 = true)
    (p12 : ∀ k, optveq (aget k e1) (aget k e2) = true)
    (p23 : ∀ k, optveq (aget k e2) (aget k e3) = true) :
    ∀ k, optveq (aget k e1) (aget k e3) = true := by
  intro k
  have q12 := p12 k
  have q23 := p23 k
  cases hg1 : aget k e1 with
  | none =>
      rw [hg1] at q12
      cases hg2 : aget k e2 with
      | none =>
          rw [hg2] at q23
          cases hg3 : aget k e3 with
          | none => rfl
          | some u3 => rw [hg3] at q23; cases q23
      | some u2 => rw [hg2] at q12; cases q12
  | some u1 =>
      rw [hg1] at q12
      cases hg2 : aget k e2 with
      | none => rw [hg2] at q12; cases q12
      | some u2 =>
          rw [hg2] at q12 q23
          cases hg3 : aget k e3 with
          | none => rw [hg3] at q23; cases q23
          | some u3 =>
              rw [hg3] at q23
              show veq u1 u3 = true
              exact veq_trans
                (WFd_get (WFdict_parts h1).2 hg1)
                (WFd_get (WFdict_parts h2).2 hg2)
                (WFd_get (WFdict_parts h3).2 hg3)
                q12 q23

theorem apply_fields_idem (mv : String) :
    ∀ (fs : List String) (d : Dict), WFdict d = true →
      ∀ k, optveq (aget k (apply_fields mv fs (apply_fields mv fs d)))
        (aget k (apply_fields mv fs d)) = true := by
  intro fs
  induction fs using List.reverseRecOn with
  | nil => intro d hd k; exact optveq_self hd k
  | append_singleton fs' f ih =>
      intro d hd k
      have hA : WFdict (apply_fields mv fs' d) = true :=
        WFdict_apply_fields mv fs' d hd
      have hSA : WFdict (set_path_go (Value.vstr mv) (split_path f)
          (apply_fields mv fs' d)) = true :=
        WFdict_go (WFv_vstr mv) _ _ hA
      have hAA : WFdict (apply_fields mv fs' (apply_fields mv fs' d)) = true :=
        WFdict_apply_fields mv fs' _ hA
      rw [apply_fields_append_singleton, apply_fields_append_singleton,
        set_path_eq, set_path_eq]
      have h1 : ∀ k1, optveq
          (aget k1 (set_path_go (Value.vstr mv) (split_path f)
            (set_path_go (Value.vstr mv) (split_path f) (apply_fields mv fs' d))))
          (aget k1 (set_path_go (Value.vstr mv) (split_path f)
            (apply_fields mv fs' d))) = true := by
        intro k1
        rw [set_path_go_idem]
        exact optveq_self hSA k1
      have h2 := apply_fields_preserve mv fs' (split_path f)
        (set_path_go (Value.vstr mv) (split_path f) (apply_fields mv fs' d))
        (apply_fields mv fs' d) hSA hA h1
      have h3 := ih d hd
      have h4 := go_congr (WFv_vstr mv) (veq_vstr_self mv) (split_path f)
        (apply_fields mv fs' (apply_fields mv fs' d)) (apply_fields mv fs' d)
        hAA hA h3
      exact pointwise_trans
        (WFdict_go (WFv_vstr mv) _ _
          (WFdict_apply_fields mv fs' _ hSA))
        (WFdict_go (WFv_vstr mv) _ _ hAA)
        (WFdict_go (WFv_vstr mv) _ _ hA)
        h2 h4 k

theorem mask_payload_eq (cfg : MaskConfig) (st : MaskState) (p : Dict)
    (hdiff : cfg.diff_fields = []) :
    (mask cfg st p).1 = apply_fields cfg.mask_value cfg.fields p := by
  unfold mask
  rw [hdiff]
  by_cases hrid : (match aget "run_id" p with
      | some v => pyStr v
      | none => "") = ""
  · simp only [hrid]
    simp
  · rw [if_neg hrid]
    rfl

/-- C9: with a masking configuration that has no diff fields, masking is
idempotent under Python equality — masking an already-masked payload
yields an equal payload — for every well-formed payload and any engine
states.  The payload passed in is never modified: the `deepcopy` in
`MaskingEngine.mask` is embedded as value semantics, so the caller keeps
its original payload. -/
theorem mask_fixed_fields_idempotent (cfg : MaskConfig) (st1 st2 : MaskState)
    (p : Dict) (hdiff : cfg.diff_fields = []) (hwf : WFdict p = true) :
    veq (Value.vobj (mask cfg st2 (mask cfg st1 p).1).1)
      (Value.vobj (mask cfg st1 p).1) = true := by
  rw [mask_payload_eq cfg st1 p hdiff, mask_payload_eq cfg st2 _ hdiff]
  refine (dveq_iff_get
    (WFdict_apply_fields _ _ _ (WFdict_apply_fields _ _ _ hwf))
    (WFdict_apply_fields _ _ _ hwf)).mpr ?_
  exact apply_fields_idem cfg.mask_value cfg.fields p hwf

/-- Witness for C9 at a concrete configuration (fields `token` and
`auth.key`, no diff fields) and payload. -/
theorem mask_fixed_fields_idempotent_witness :
    veq
      (Value.vobj (mask ⟨["token", "auth.key"], [], "***"⟩ ⟨[]⟩
        (mask ⟨["token", "auth.key"], [], "***"⟩ ⟨[]⟩
          [("token", Value.vstr "secret"), ("run_id", Value.vstr "r")]).1).1)
      (Value.vobj (mask ⟨["token", "auth.key"], [], "***"⟩ ⟨[]⟩
        [("token", Value.vstr "secret"), ("run_id", Value.vstr "r")]).1) = true :=
  mask_fixed_fields_idempotent ⟨["token", "auth.key"], [], "***"⟩ ⟨[]⟩ ⟨[]⟩
    [("token", Value.vstr "secret"), ("run_id", Value.vstr "r")] rfl (by decide)

end AgentEthan
